import Mathlib

/-!
# unifi-video-motion-to-mqtt: the line pipeline of `main.go`

A shallow embedding of `src/main.go`:

* the regular expression `match` (line 39) and `FindStringSubmatch` as used on
  line 102, over a small backtracking matcher with Go's leftmost-first
  semantics;
* the descriptor built on lines 108-121 and its JSON encoding (line 136);
* the body of the `for line := range t.Lines` loop (lines 100-156) as a
  function from one line and the broker's answers to the list of effects the
  program performs.
-/

namespace MotionMqtt

/-! ## Character classes of Go's `regexp` (RE2 syntax, ASCII Perl classes) -/

/-- Class `\d`, that is `[0-9]`. -/
def isDigit (c : Char) : Bool := decide ('0' ≤ c) && decide (c ≤ '9')

/-- Class `[a-z]`. -/
def isLower (c : Char) : Bool := decide ('a' ≤ c) && decide (c ≤ 'z')

/-- Class `[A-Z]`. -/
def isUpper (c : Char) : Bool := decide ('A' ≤ c) && decide (c ≤ 'Z')

/-- Class `\w`, that is `[0-9A-Za-z_]`. -/
def isWord (c : Char) : Bool := isDigit c || isUpper c || isLower c || c == '_'

/-- Class `\s`, that is `[\t\n\f\r ]`. -/
def isSpace (c : Char) : Bool :=
  c == '\t' || c == '\n' || c == '\x0c' || c == '\r' || c == ' '

/-- Class `[\w\s]` of capture group 2. -/
def isWordOrSpace (c : Char) : Bool := isWord c || isSpace c

/-- Class `[a-z0-9]` of capture group 5. -/
def isLowerAlnum (c : Char) : Bool := isLower c || isDigit c

/-- The dot: any character except a newline (the `s` flag is not set). -/
def isDot (c : Char) : Bool := c != '\n'

/-! ## Regular expressions and leftmost-first matching -/

/-- The fragment of RE2 syntax that `match` is written in. Repetition is
applied to single-character classes only, as it is in `match`. -/
inductive Regex where
  /-- The assertion `^`: at the beginning of the text (no `m` flag). -/
  | beginText : Regex
  /-- The assertion `\b`: at an ASCII word boundary. -/
  | wordBoundary : Regex
  /-- A run of literal characters. -/
  | lit : List Char → Regex
  /-- Greedy `c+` for a character class `c`. -/
  | plus : (Char → Bool) → Regex
  /-- Greedy `c*` for a character class `c`. -/
  | star : (Char → Bool) → Regex
  /-- Concatenation. -/
  | seq : Regex → Regex → Regex
  /-- Alternation `a|b`, preferring `a`. -/
  | alt : Regex → Regex → Regex
  /-- Numbered capture group. -/
  | group : Nat → Regex → Regex

/-- One way of matching a prefix of the remaining input: the text consumed,
the input left over, and the text of each capture group closed on the way. -/
structure Thread where
  text : List Char
  rest : List Char
  caps : List (Nat × List Char)
deriving DecidableEq, Repr

/-- All ways for a greedy `c*` to consume a prefix of the input, in the order a
backtracking search tries them: longest first. Each is (consumed, left over). -/
def starRuns (p : Char → Bool) : List Char → List (List Char × List Char)
  | [] => [([], [])]
  | c :: s =>
    if p c then (starRuns p s).map (fun r => (c :: r.1, r.2)) ++ [([], c :: s)]
    else [([], c :: s)]

/-- All ways for a greedy `c+` to consume a prefix of the input, longest first. -/
def plusRuns (p : Char → Bool) : List Char → List (List Char × List Char)
  | [] => []
  | c :: s => if p c then (starRuns p s).map (fun r => (c :: r.1, r.2)) else []

/-- Whether the optional character is a word character (`\w`); the ends of the
text count as non-word. -/
def isWordAt : Option Char → Bool
  | none => false
  | some c => isWord c

/-- All matches of `r` that start at the current position, in the order in
which a backtracking search finds them (Go's `regexp` returns, among the
matches that begin leftmost, "the one that a backtracking search would have
found first"). `left` is the text before the current position, nearest
character first; `s` is the text from the current position on. -/
def Regex.run : Regex → List Char → List Char → List Thread
  | .beginText, left, s => if left.isEmpty then [⟨[], s, []⟩] else []
  | .wordBoundary, left, s =>
    if isWordAt left.head? != isWordAt s.head? then [⟨[], s, []⟩] else []
  | .lit t, _, s => if t.isPrefixOf s then [⟨t, s.drop t.length, []⟩] else []
  | .plus p, _, s => (plusRuns p s).map (fun r => ⟨r.1, r.2, []⟩)
  | .star p, _, s => (starRuns p s).map (fun r => ⟨r.1, r.2, []⟩)
  | .seq a b, left, s =>
    (a.run left s).flatMap (fun t₁ =>
      (b.run (t₁.text.reverse ++ left) t₁.rest).map (fun t₂ =>
        ⟨t₁.text ++ t₂.text, t₂.rest, t₁.caps ++ t₂.caps⟩))
  | .alt a b, left, s => a.run left s ++ b.run left s
  | .group n r, left, s =>
    (r.run left s).map (fun t => ⟨t.text, t.rest, t.caps ++ [(n, t.text)]⟩)

/-- The leftmost-first match of `r` in the text `left.reverse ++ s`, searching
start positions from the current one rightwards. -/
def Regex.search (r : Regex) : List Char → List Char → Option Thread
  | left, [] => (r.run left []).head?
  | left, c :: s =>
    match (r.run left (c :: s)).head? with
    | some t => some t
    | none => r.search (c :: left) s

/-- Text of capture group `n` in a finished match; a group that took no part
in the match reads as the empty string, as in Go. -/
def capture (caps : List (Nat × List Char)) (n : Nat) : String :=
  match caps.lookup n with
  | some t => String.mk t
  | none => ""

/-- Go's `(*Regexp).FindStringSubmatch` for a pattern with `groups` capture
groups: `none` stands for the nil slice returned when there is no match,
otherwise the whole match followed by the text of groups `1..groups`. -/
def FindStringSubmatch (r : Regex) (groups : Nat) (s : String) : Option (List String) :=
  match r.search [] s.data with
  | none => none
  | some t => some (String.mk t.text :: (List.range groups).map (fun i => capture t.caps (i + 1)))

/-- Line 39: the pattern
`^Parsed id: (\w+), name: ([\w\s]+), action: (STARTED|ENDED), motion: (\d+.*), recording: ([a-z0-9]+\b|null)`. -/
def matchRE : Regex :=
  .seq .beginText <|
  .seq (.lit "Parsed id: ".data) <|
  .seq (.group 1 (.plus isWord)) <|
  .seq (.lit ", name: ".data) <|
  .seq (.group 2 (.plus isWordOrSpace)) <|
  .seq (.lit ", action: ".data) <|
  .seq (.group 3 (.alt (.lit "STARTED".data) (.lit "ENDED".data))) <|
  .seq (.lit ", motion: ".data) <|
  .seq (.group 4 (.seq (.plus isDigit) (.star isDot))) <|
  .seq (.lit ", recording: ".data) <|
  .group 5 (.alt (.seq (.plus isLowerAlnum) .wordBoundary) (.lit "null".data))

/-! ## Lines 102-108: decoding a line -/

/-- The five values bound on line 108 from a matching line. -/
structure MotionEvent where
  cameraID : String
  cameraName : String
  action : String
  motionLevel : String
  recordingID : String
deriving DecidableEq, Repr

/-- Lines 102-108: `matches := match.FindStringSubmatch(line.Text)`, no event
when `len(matches) == 0`, otherwise `matches[1]` to `matches[5]`. -/
def decode (text : String) : Option MotionEvent :=
  match FindStringSubmatch matchRE 5 text with
  | none => none
  | some found =>
    some ⟨found.getD 1 "", found.getD 2 "", found.getD 3 "", found.getD 4 "", found.getD 5 ""⟩

/-! ## The slug transform -/

/-- White space in the sense of Go's `unicode.IsSpace`, which is what
`strings.TrimSpace` removes (used by the model of the slug transform). -/
def isUnicodeSpace (c : Char) : Bool :=
  c == '\t' || c == '\n' || c == '\x0b' || c == '\x0c' || c == '\r' || c == ' ' ||
  c.toNat == 0x85 || c.toNat == 0xA0 || c.toNat == 0x1680 ||
  (decide (0x2000 ≤ c.toNat) && decide (c.toNat ≤ 0x200A)) ||
  c.toNat == 0x2028 || c.toNat == 0x2029 || c.toNat == 0x202F || c.toNat == 0x205F ||
  c.toNat == 0x3000

/-- Go's `strings.TrimSpace` (used by the model of the slug transform). -/
def trimSpace (s : List Char) : List Char :=
  (s.dropWhile isUnicodeSpace).rdropWhile isUnicodeSpace

/-- Part of the model of the slug transform: ASCII lower-casing of one
character, `v += 'a'; v -= 'A'` for a capital. -/
def lower (c : Char) : Char := if isUpper c then Char.ofNat (c.toNat + 32) else c

/-- Part of the model of the slug transform: the characters that are replaced
by the delimiter. -/
def isSeparator (c : Char) : Bool := c == ' ' || c == '_' || c == '-' || c == '.'

/-- Part of the model of the slug transform: whether the case type changes
from `v` to `next`, that is capital to lower-case or digit, lower-case to
capital or digit, digit to letter. -/
def caseChanges (v next : Char) : Bool :=
  (isUpper v && (isLower next || isDigit next)) ||
  (isLower v && (isUpper next || isDigit next)) ||
  (isDigit v && (isUpper next || isLower next))

/-- Part of the model of the slug transform: what is written for the character
`v` when no case change follows it. -/
def plainOut (v : Char) : Char := if isSeparator (lower v) then '_' else lower v

/-- Modelled from the spec: the loop of the slug transform `strcase.ToSnake`
(third-party, not among the sources) over the trimmed name; `prev` is the
character before `v`, if any. At a change of case type the character is
written lower-cased, with an underscore before it when it is the last capital
of an acronym and an underscore after it when it is a lower-case letter or a
digit or is followed by a digit; otherwise a space, underscore, hyphen or dot
is written as an underscore and any other character lower-cased. -/
def snakeLoop : Option Char → List Char → List Char
  | _, [] => []
  | _, [v] => [plainOut v]
  | prev, v :: next :: rest =>
    if caseChanges v next then
      (if isUpper v && isLower next && prev.any isUpper then ['_'] else []) ++
        lower v :: (if isLower v || isDigit v || isDigit next then ['_'] else []) ++
        snakeLoop (some v) (next :: rest)
    else plainOut v :: snakeLoop (some v) (next :: rest)

/-- Modelled from the spec: the slug transform `strcase.ToSnake`, a function of
the third-party package `github.com/iancoleman/strcase` that is not among the
sources. The spec describes it as the transform of `cameraName` "into a
lowercase, underscore-joined token (split on word boundaries/case changes and
spaces)". The model follows the package's `ToScreamingDelimited(s, '_', "",
false)`: surrounding white space is trimmed, ASCII capitals are lower-cased,
every space, underscore, hyphen and dot becomes an underscore, and an
underscore is inserted where the case type changes (between a lower-case
letter and a capital, between letters and digits, before the last capital of
an acronym). Other characters, white space other than the space character
among them, are copied as they are. The package works on bytes; on characters
outside ASCII the two readings agree, since every such byte is copied. -/
def ToSnake (s : String) : String := String.mk (snakeLoop none (trimSpace s.data))

/-! ## Lines 109-121: the device descriptor -/

/-- Lines 27-36: `type Device struct`. -/
structure Device where
  ID : String
  Name : String
  AvailabilityTopic : String
  StateTopic : String
  DeviceClass : String
  PayloadOn : String
  PayloadOff : String
deriving DecidableEq, Repr

/-- Line 109: `fmt.Sprintf("homeassistant/binary_sensor/%s_motion", strcase.ToSnake(name))`. -/
def topic (name : String) : String :=
  "homeassistant/binary_sensor/" ++ ToSnake name ++ "_motion"

/-- Lines 113-121: the `Device` literal. -/
def buildDevice (e : MotionEvent) : Device where
  ID := e.cameraID
  Name := e.cameraName ++ " Camera Motion"
  AvailabilityTopic := topic e.cameraName ++ "/" ++ "status"
  StateTopic := topic e.cameraName ++ "/" ++ "state"
  DeviceClass := "motion"
  PayloadOn := "STARTED"
  PayloadOff := "ENDED"

/-! ## Line 136: `json.Marshal(device)` -/

/-- Lower-case hexadecimal digit, as in Go's `const hex = "0123456789abcdef"`. -/
def hexDigit (n : Nat) : Char := "0123456789abcdef".data.getD n '0'

/-- How `encoding/json` writes one character of a string (with HTML escaping,
which `json.Marshal` turns on), as in the `switch` of its string encoder: a
backslash before the double quote and the backslash; `\b`, `\f`, `\n`, `\r`,
`\t` for backspace, form feed, newline, carriage return and tab; `\u00XX` for
the other control characters and for `<`, `>`, `&`; `\u2028` and `\u2029`
for the two Unicode line separators; any other character as it is. (The cases
`\b` and `\f` are those of Go 1.22 and later; before, these two characters
were written `\u0008` and `\u000c`, which denote the same characters.) -/
def jsonEscape (c : Char) : List Char :=
  if c = '"' ∨ c = '\\' then ['\\', c]
  else if c = '\x08' then ['\\', 'b']
  else if c = '\x0c' then ['\\', 'f']
  else if c = '\n' then ['\\', 'n']
  else if c = '\r' then ['\\', 'r']
  else if c = '\t' then ['\\', 't']
  else if c.toNat < 0x20 ∨ c = '<' ∨ c = '>' ∨ c = '&' then
    ['\\', 'u', '0', '0', hexDigit (c.toNat / 16), hexDigit (c.toNat % 16)]
  else if c.toNat = 0x2028 ∨ c.toNat = 0x2029 then
    ['\\', 'u', '2', '0', '2', hexDigit (c.toNat % 16)]
  else [c]

/-- A Go string as a JSON string literal. -/
def jsonString (s : String) : List Char :=
  '"' :: s.data.flatMap jsonEscape ++ ['"']

/-- The members of a JSON object as `encoding/json` writes the fields of a
struct: each name and value as a string literal with a colon in between, and
commas between the members. -/
def jsonMembers : List (String × String) → List Char
  | [] => []
  | [(key, value)] => jsonString key ++ ':' :: jsonString value
  | (key, value) :: more => jsonString key ++ ':' :: jsonString value ++ ',' :: jsonMembers more

/-- Go's `json.Marshal` on a `Device`: one object with the fields in
declaration order under the names of their `json:"..."` tags (lines 29-35).
Marshalling a struct of strings cannot fail, so the `log.Fatalf` of line 139
is never reached. -/
def jsonMarshal (d : Device) : String :=
  String.mk <| '\x7b' :: jsonMembers [("id", d.ID), ("name", d.Name),
    ("availability_topic", d.AvailabilityTopic), ("state_topic", d.StateTopic),
    ("device_class", d.DeviceClass), ("payload_on", d.PayloadOn),
    ("payload_off", d.PayloadOff)] ++ ['\x7d']

/-! ## Lines 100-156: the loop body -/

/-- Lines 19-25: the `MQTT` part of `Configuration`. -/
structure Configuration where
  Broker : String
  Username : String
  Password : String
deriving DecidableEq, Repr

/-- Lines 123-127: what is set on the `mqtt.ClientOptions`. -/
structure ClientOptions where
  broker : String
  username : String
  password : String
  willTopic : String
  willPayload : String
  willQos : Nat
  willRetained : Bool
deriving DecidableEq, Repr

/-- What the program does to the outside world. -/
inductive Effect where
  /-- A line written to standard output (`fmt.Printf`, `fmt.Println`). -/
  | stdout : String → Effect
  /-- The call `client.Connect()` of line 68 on a client with these options. -/
  | connect : ClientOptions → Effect
  /-- The call `client.Publish(topic, qos, retained, payload)`. -/
  | publish : String → Nat → Bool → String → Effect
  /-- The call `log.Fatal(err)`: the error is logged and the process exits with status 1. -/
  | fatal : String → Effect
deriving DecidableEq, Repr

/-- The broker's answers while one line is processed: for the connection and
for each of the three publishes, `none` for success or the text of
`token.Error()`. -/
structure Answers where
  connect : Option String
  config : Option String
  state : Option String
  status : Option String
deriving DecidableEq, Repr

/-- The `if token := ...; token.Wait() && token.Error() != nil { fmt.Println(token.Error()) }`
around each publish. -/
def reportError : Option String → List Effect
  | none => []
  | some err => [.stdout (err ++ "\n")]

/-- Lines 111-155 for a decoded event: the effects performed, and whether the
process has exited. -/
def handleEvent (config : Configuration) (e : MotionEvent) (net : Answers) :
    List Effect × Bool :=
  let device := buildDevice e
  let banner := Effect.stdout ("Parsed id: " ++ e.cameraID ++ ", name: " ++ e.cameraName ++
    ", action: " ++ e.action ++ ", motion: " ++ e.motionLevel ++ ", recording: " ++
    e.recordingID ++ "\n")
  let options : ClientOptions :=
    ⟨config.Broker, config.Username, config.Password, device.AvailabilityTopic, "offline", 0, false⟩
  match net.connect with
  | some err => ([banner, .connect options, .fatal err], true)
  | none =>
    ([banner, .connect options,
      .publish (topic e.cameraName ++ "/" ++ "config") 0 false (jsonMarshal device)] ++
      reportError net.config ++
      [.publish device.StateTopic 0 false e.action] ++ reportError net.state ++
      [.publish device.AvailabilityTopic 0 false "online"] ++ reportError net.status, false)

/-- Lines 101-155: one iteration of `for line := range t.Lines`. -/
def loopBody (config : Configuration) (text : String) (net : Answers) : List Effect × Bool :=
  match decode text with
  | none => ([], false)
  | some e => handleEvent config e net

/-- Lines 100-156 on the lines appended so far, each with the broker's answers
at the time it is processed: all effects in order, and whether the process
has exited. -/
def mainLoop (config : Configuration) : List (String × Answers) → List Effect × Bool
  | [] => ([], false)
  | (text, net) :: later =>
    match loopBody config text net with
    | (effects, true) => (effects, true)
    | (effects, false) => ((effects ++ (mainLoop config later).1), (mainLoop config later).2)

/-! ## The input classes and properties that the claims speak of -/

/-- An id: one or more word characters. -/
def isWordToken (s : String) : Bool := !s.data.isEmpty && s.data.all isWord

/-- A camera name made of word characters with interior spaces: word
characters and spaces only, beginning and ending with a word character. -/
def isSpacedName (s : String) : Bool :=
  s.data.all (fun c => isWord c || c == ' ') && s.data.head?.any isWord &&
    s.data.getLast?.any isWord

/-- A decimal number: digits, optionally followed by a dot and digits. -/
def isDecimal (s : String) : Bool :=
  let whole := s.data.takeWhile isDigit
  let rest := s.data.dropWhile isDigit
  !whole.isEmpty &&
    (rest.isEmpty || (rest.head? == some '.' && !rest.tail.isEmpty && rest.tail.all isDigit))

/-- A recording id: a non-empty lower-case alphanumeric token, or `null`. -/
def isRecordingToken (s : String) : Bool :=
  (!s.data.isEmpty && s.data.all isLowerAlnum) || s == "null"

/-- The line format of the recorder, as the spec writes it. -/
def parsedLine (id name action motion recording : String) : String :=
  "Parsed id: " ++ id ++ ", name: " ++ name ++ ", action: " ++ action ++ ", motion: " ++
    motion ++ ", recording: " ++ recording

/-- Value of a hexadecimal digit. -/
def hexValue (c : Char) : Option Nat :=
  if isDigit c then some (c.toNat - 48)
  else if 'a' ≤ c ∧ c ≤ 'f' then some (c.toNat - 87)
  else if 'A' ≤ c ∧ c ≤ 'F' then some (c.toNat - 55)
  else none

/-- The character denoted by a two-character escape of a JSON string. -/
def unescape (c : Char) : Option Char :=
  if c = '"' ∨ c = '\\' ∨ c = '/' then some c
  else if c = 'n' then some '\n'
  else if c = 'r' then some '\r'
  else if c = 't' then some '\t'
  else if c = 'b' then some '\x08'
  else if c = 'f' then some '\x0c'
  else none

/-- A JSON reader, one character of a string literal (RFC 8259, section 7):
an unescaped character, a two-character escape, or `\uXXXX`. Gives the
character denoted and the input after it. -/
def readChar : List Char → Option (Char × List Char)
  | [] => none
  | c :: rest =>
    if c = '\\' then
      match rest with
      | [] => none
      | e :: rest₁ =>
        if e = 'u' then
          match rest₁ with
          | a :: b :: c :: d :: rest₂ =>
            match hexValue a, hexValue b, hexValue c, hexValue d with
            | some x, some y, some z, some w =>
              some (Char.ofNat (((x * 16 + y) * 16 + z) * 16 + w), rest₂)
            | _, _, _, _ => none
          | _ => none
        else (unescape e).map (fun ch => (ch, rest₁))
    else if c = '"' ∨ c.toNat < 0x20 then none
    else some (c, rest)

/-- A JSON reader, the rest of a string literal after its opening quote: the
string denoted and the input after the closing quote. The fuel bounds the
number of characters read. -/
def readStringBody : Nat → List Char → Option (List Char × List Char)
  | 0, _ => none
  | fuel + 1, s =>
    match s with
    | '"' :: rest => some ([], rest)
    | _ =>
      match readChar s with
      | none => none
      | some (c, rest) => (readStringBody fuel rest).map (fun r => (c :: r.1, r.2))

/-- A JSON reader, a string literal at the head of the input. -/
def readString : List Char → Option (String × List Char)
  | '"' :: body => (readStringBody body.length body).map (fun r => (String.mk r.1, r.2))
  | _ => none

/-- A JSON reader, the members of an object of strings up to its closing
brace, in order. The fuel bounds the number of members read. -/
def readMembers : Nat → List Char → Option (List (String × String))
  | 0, _ => none
  | fuel + 1, s =>
    match readString s with
    | some (key, ':' :: s₁) =>
      match readString s₁ with
      | some (value, ['\x7d']) => some [(key, value)]
      | some (value, ',' :: s₂) => (readMembers fuel s₂).map (fun m => (key, value) :: m)
      | _ => none
    | _ => none

/-- A JSON reader for an object whose values are strings, in the compact form
that `json.Marshal` writes: the members as (name, value) pairs, in order. -/
def readObject (s : String) : Option (List (String × String)) :=
  match s.data with
  | '\x7b' :: rest => readMembers rest.length rest
  | _ => none

/-- A name that is non-empty, holds word characters and space characters only,
and has no white space at either end. -/
def isInteriorSpaced (s : String) : Bool :=
  !s.data.isEmpty && s.data.all (fun c => isWord c || c == ' ') &&
    !s.data.head?.any isSpace && !s.data.getLast?.any isSpace

/-- Whether an effect is a call to the broker (connect or publish). -/
def Effect.isBrokerCall : Effect → Bool
  | .connect _ => true
  | .publish _ _ _ _ => true
  | _ => false

/-- Whether an effect is a publish. -/
def Effect.isPublish : Effect → Bool
  | .publish _ _ _ _ => true
  | _ => false

/-! ## Lists: splitting at a delimiter, first element of a search -/

theorem split_unique {p : Char → Bool} {d : Char} (hd : p d = false) :
    ∀ {a b x y : List Char}, (∀ c ∈ a, p c = true) → (∀ c ∈ b, p c = true) →
      a ++ d :: x = b ++ d :: y → a = b ∧ x = y := by
  intro a
  induction a with
  | nil =>
    intro b x y _ hb h
    cases b with
    | nil => simpa using h
    | cons c b =>
      simp only [List.nil_append, List.cons_append, List.cons.injEq] at h
      have := hb c (by simp)
      rw [← h.1, hd] at this
      cases this
  | cons e a ih =>
    intro b x y ha hb h
    cases b with
    | nil =>
      simp only [List.nil_append, List.cons_append, List.cons.injEq] at h
      have := ha e (by simp)
      rw [h.1, hd] at this
      cases this
    | cons c b =>
      simp only [List.cons_append, List.cons.injEq] at h
      obtain ⟨rfl, h⟩ := h
      have := ih (fun c hc => ha c (by simp [hc])) (fun c hc => hb c (by simp [hc])) h
      simp [this.1, this.2]

theorem head?_flatMap_unique {α β : Type} {f : α → List β} {x : α} :
    ∀ {L : List α}, x ∈ L → (∀ y ∈ L, y ≠ x → f y = []) →
      (L.flatMap f).head? = (f x).head? := by
  intro L
  induction L with
  | nil => intro hx; cases hx
  | cons y L ih =>
    intro hx h
    by_cases hyx : y = x
    · subst hyx
      by_cases hfe : f y = []
      · have hall : ∀ z ∈ y :: L, f z = [] := by
          intro z hz
          by_cases hzy : z = y
          · rw [hzy, hfe]
          · exact h z hz hzy
        have : (y :: L).flatMap f = [] := by
          rw [List.flatMap_eq_nil_iff]; exact hall
        rw [this, hfe]
      · cases hfy : f y with
        | nil => exact absurd hfy hfe
        | cons b bs => simp [List.flatMap_cons, hfy]
    · have hxL : x ∈ L := by
        rcases List.mem_cons.1 hx with h1 | h1
        · exact absurd h1.symm hyx
        · exact h1
      have hfy : f y = [] := h y (by simp) hyx
      rw [List.flatMap_cons, hfy, List.nil_append]
      exact ih hxL (fun z hz => h z (by simp [hz]))

/-! ## The matcher: what each construct can match -/

theorem mem_starRuns {p : Char → Bool} :
    ∀ {s : List Char} {r : List Char × List Char},
      r ∈ starRuns p s ↔ s = r.1 ++ r.2 ∧ ∀ c ∈ r.1, p c = true := by
  intro s
  induction s with
  | nil =>
    intro r
    obtain ⟨a, b⟩ := r
    simp only [starRuns, List.mem_singleton, Prod.mk.injEq]
    constructor
    · rintro ⟨rfl, rfl⟩; simp
    · rintro ⟨h, -⟩
      have := List.append_eq_nil.1 h.symm
      exact this
  | cons c s ih =>
    intro r
    obtain ⟨a, b⟩ := r
    unfold starRuns
    by_cases hp : p c = true
    · rw [if_pos hp]
      simp only [List.mem_append, List.mem_map, List.mem_singleton, Prod.mk.injEq]
      constructor
      · rintro (⟨⟨a0, b0⟩, hm, rfl, rfl⟩ | ⟨rfl, rfl⟩)
        · obtain ⟨h1, h2⟩ := ih.1 hm
          refine ⟨by simpa using h1, ?_⟩
          intro d hdm
          rcases List.mem_cons.1 hdm with rfl | hdm
          · exact hp
          · exact h2 d hdm
        · simp
      · rintro ⟨h1, h2⟩
        cases a with
        | nil => right; simpa using h1.symm
        | cons e a =>
          left
          simp only [List.cons_append, List.cons.injEq] at h1
          obtain ⟨rfl, h1⟩ := h1
          exact ⟨(a, b), ih.2 ⟨h1, fun d hdm => h2 d (by simp [hdm])⟩, rfl, rfl⟩
    · rw [if_neg hp]
      simp only [List.mem_singleton, Prod.mk.injEq]
      constructor
      · rintro ⟨rfl, rfl⟩; simp
      · rintro ⟨h1, h2⟩
        cases a with
        | nil => simpa using h1.symm
        | cons e a =>
          simp only [List.cons_append, List.cons.injEq] at h1
          obtain ⟨rfl, -⟩ := h1
          exact absurd (h2 c (by simp)) hp

theorem mem_plusRuns {p : Char → Bool} {s : List Char} {r : List Char × List Char} :
    r ∈ plusRuns p s ↔ s = r.1 ++ r.2 ∧ r.1 ≠ [] ∧ ∀ c ∈ r.1, p c = true := by
  obtain ⟨a, b⟩ := r
  cases s with
  | nil =>
    simp only [plusRuns, List.not_mem_nil, false_iff]
    rintro ⟨h, hne, -⟩
    exact hne (List.append_eq_nil.1 h.symm).1
  | cons c s =>
    simp only [plusRuns]
    by_cases hp : p c = true
    · rw [if_pos hp]
      simp only [List.mem_map, Prod.mk.injEq]
      constructor
      · rintro ⟨⟨a0, b0⟩, hm, rfl, rfl⟩
        obtain ⟨h1, h2⟩ := mem_starRuns.1 hm
        refine ⟨by simpa using h1, by simp, ?_⟩
        intro d hdm
        rcases List.mem_cons.1 hdm with rfl | hdm
        · exact hp
        · exact h2 d hdm
      · rintro ⟨h1, hne, h2⟩
        cases a with
        | nil => exact absurd rfl hne
        | cons e a =>
          simp only [List.cons_append, List.cons.injEq] at h1
          obtain ⟨rfl, h1⟩ := h1
          exact ⟨(a, b), mem_starRuns.2 ⟨h1, fun d hdm => h2 d (by simp [hdm])⟩, rfl, rfl⟩
    · rw [if_neg hp]
      simp only [List.not_mem_nil, false_iff]
      rintro ⟨h1, hne, h2⟩
      cases a with
      | nil => exact hne rfl
      | cons e a =>
        simp only [List.cons_append, List.cons.injEq] at h1
        obtain ⟨rfl, -⟩ := h1
        exact hp (h2 c (by simp))

theorem mem_run_beginText {left s : List Char} {t : Thread} :
    t ∈ Regex.beginText.run left s ↔ left = [] ∧ t = ⟨[], s, []⟩ := by
  cases left <;> simp [Regex.run]

theorem mem_run_wordBoundary {left s : List Char} {t : Thread} :
    t ∈ Regex.wordBoundary.run left s ↔
      isWordAt left.head? ≠ isWordAt s.head? ∧ t = ⟨[], s, []⟩ := by
  by_cases h : isWordAt left.head? = isWordAt s.head? <;> simp [Regex.run, h]

theorem mem_run_lit {l left s : List Char} {t : Thread} :
    t ∈ (Regex.lit l).run left s ↔ s = l ++ t.rest ∧ t.text = l ∧ t.caps = [] := by
  obtain ⟨tx, tr, tc⟩ := t
  simp only [Regex.run]
  by_cases h : l.isPrefixOf s = true
  · rw [if_pos h]
    obtain ⟨r, rfl⟩ := List.isPrefixOf_iff_prefix.1 h
    simp only [List.mem_singleton, Thread.mk.injEq, List.drop_left, List.append_cancel_left_eq]
    constructor
    · rintro ⟨rfl, rfl, rfl⟩; simp
    · rintro ⟨rfl, rfl, rfl⟩; simp
  · rw [if_neg h]
    simp only [List.not_mem_nil, false_iff]
    rintro ⟨rfl, -, -⟩
    exact h (List.isPrefixOf_iff_prefix.2 ⟨tr, rfl⟩)

theorem mem_run_plus {p : Char → Bool} {left s : List Char} {t : Thread} :
    t ∈ (Regex.plus p).run left s ↔
      s = t.text ++ t.rest ∧ t.text ≠ [] ∧ (∀ c ∈ t.text, p c = true) ∧ t.caps = [] := by
  obtain ⟨tx, tr, tc⟩ := t
  simp only [Regex.run, List.mem_map, Thread.mk.injEq, Prod.exists]
  constructor
  · rintro ⟨a, b, hm, rfl, rfl, rfl⟩
    obtain ⟨h1, h2, h3⟩ := mem_plusRuns.1 hm
    exact ⟨h1, h2, h3, rfl⟩
  · rintro ⟨h1, h2, h3, rfl⟩
    exact ⟨tx, tr, mem_plusRuns.2 ⟨h1, h2, h3⟩, rfl, rfl, rfl⟩

theorem mem_run_star {p : Char → Bool} {left s : List Char} {t : Thread} :
    t ∈ (Regex.star p).run left s ↔
      s = t.text ++ t.rest ∧ (∀ c ∈ t.text, p c = true) ∧ t.caps = [] := by
  obtain ⟨tx, tr, tc⟩ := t
  simp only [Regex.run, List.mem_map, Thread.mk.injEq, Prod.exists]
  constructor
  · rintro ⟨a, b, hm, rfl, rfl, rfl⟩
    obtain ⟨h1, h2⟩ := mem_starRuns.1 hm
    exact ⟨h1, h2, rfl⟩
  · rintro ⟨h1, h2, rfl⟩
    exact ⟨tx, tr, mem_starRuns.2 ⟨h1, h2⟩, rfl, rfl, rfl⟩

theorem mem_run_seq {a b : Regex} {left s : List Char} {t : Thread} :
    t ∈ (Regex.seq a b).run left s ↔
      ∃ t₁ ∈ a.run left s, ∃ t₂ ∈ b.run (t₁.text.reverse ++ left) t₁.rest,
        t = ⟨t₁.text ++ t₂.text, t₂.rest, t₁.caps ++ t₂.caps⟩ := by
  simp only [Regex.run, List.mem_flatMap, List.mem_map]
  constructor
  · rintro ⟨t₁, h₁, t₂, h₂, rfl⟩; exact ⟨t₁, h₁, t₂, h₂, rfl⟩
  · rintro ⟨t₁, h₁, t₂, h₂, rfl⟩; exact ⟨t₁, h₁, t₂, h₂, rfl⟩

theorem mem_run_alt {a b : Regex} {left s : List Char} {t : Thread} :
    t ∈ (Regex.alt a b).run left s ↔ t ∈ a.run left s ∨ t ∈ b.run left s := by
  simp [Regex.run]

theorem mem_run_group {n : Nat} {r : Regex} {left s : List Char} {t : Thread} :
    t ∈ (Regex.group n r).run left s ↔
      ∃ u ∈ r.run left s, t = ⟨u.text, u.rest, u.caps ++ [(n, u.text)]⟩ := by
  simp only [Regex.run, List.mem_map]
  constructor
  · rintro ⟨u, hu, rfl⟩; exact ⟨u, hu, rfl⟩
  · rintro ⟨u, hu, rfl⟩; exact ⟨u, hu, rfl⟩

/-- A successful search returns a match of the pattern at some start position. -/
theorem search_some {r : Regex} :
    ∀ {s left : List Char} {t : Thread}, r.search left s = some t →
      ∃ skipped from_here, s = skipped ++ from_here ∧
        t ∈ r.run (skipped.reverse ++ left) from_here := by
  intro s
  induction s with
  | nil =>
    intro left t h
    simp only [Regex.search] at h
    exact ⟨[], [], rfl, by simpa using List.mem_of_mem_head? h⟩
  | cons c s ih =>
    intro left t h
    simp only [Regex.search] at h
    cases hh : (r.run left (c :: s)).head? with
    | some u =>
      rw [hh] at h
      simp only [Option.some.injEq] at h
      subst h
      exact ⟨[], c :: s, rfl, by simpa using List.mem_of_mem_head? hh⟩
    | none =>
      rw [hh] at h
      obtain ⟨sk, fh, rfl, hm⟩ := ih h
      exact ⟨c :: sk, fh, rfl, by simpa using hm⟩

theorem search_of_head? {r : Regex} {left s : List Char} {t : Thread}
    (h : (r.run left s).head? = some t) : r.search left s = some t := by
  cases s with
  | nil => simpa [Regex.search] using h
  | cons c s => simp [Regex.search, h]

theorem run_seq_lit {l : List Char} {R : Regex} {left s : List Char} {t : Thread}
    (h : t ∈ ((Regex.lit l).seq R).run left s) :
    ∃ s₁, s = l ++ s₁ ∧ ∃ u ∈ R.run (l.reverse ++ left) s₁,
      t.text = l ++ u.text ∧ t.rest = u.rest ∧ t.caps = u.caps := by
  obtain ⟨a, ha, u, hu, rfl⟩ := mem_run_seq.1 h
  obtain ⟨e, ht, hc⟩ := mem_run_lit.1 ha
  rw [ht] at hu
  exact ⟨a.rest, e, u, hu, by simp [ht], rfl, by simp [hc]⟩

theorem run_seq_group {n : Nat} {A R : Regex} {left s : List Char} {t : Thread}
    (h : t ∈ ((Regex.group n A).seq R).run left s) :
    ∃ a ∈ A.run left s, ∃ u ∈ R.run (a.text.reverse ++ left) a.rest,
      t.text = a.text ++ u.text ∧ t.rest = u.rest ∧
      t.caps = a.caps ++ (n, a.text) :: u.caps := by
  obtain ⟨g, hg, u, hu, rfl⟩ := mem_run_seq.1 h
  obtain ⟨a, ha, rfl⟩ := mem_run_group.1 hg
  exact ⟨a, ha, u, hu, rfl, rfl, by simp⟩

/-- Group 3, `STARTED|ENDED`. -/
theorem run_action {left s : List Char} {a : Thread}
    (h : a ∈ ((Regex.lit "STARTED".data).alt (Regex.lit "ENDED".data)).run left s) :
    s = a.text ++ a.rest ∧ a.caps = [] ∧ (a.text = "STARTED".data ∨ a.text = "ENDED".data) := by
  rcases mem_run_alt.1 h with hh | hh
  · obtain ⟨x1, x2, x3⟩ := mem_run_lit.1 hh
    exact ⟨by rw [x2]; exact x1, x3, Or.inl x2⟩
  · obtain ⟨x1, x2, x3⟩ := mem_run_lit.1 hh
    exact ⟨by rw [x2]; exact x1, x3, Or.inr x2⟩

/-- Group 4, `\d+.*`. -/
theorem run_motion {left s : List Char} {a : Thread}
    (h : a ∈ ((Regex.plus isDigit).seq (Regex.star isDot)).run left s) :
    s = a.text ++ a.rest ∧ a.caps = [] ∧
      ∃ d x, a.text = d ++ x ∧ d ≠ [] ∧ (∀ c ∈ d, isDigit c = true) ∧
        ∀ c ∈ x, isDot c = true := by
  obtain ⟨d, hd, x, hx, rfl⟩ := mem_run_seq.1 h
  obtain ⟨e1, n1, a1, c1⟩ := mem_run_plus.1 hd
  obtain ⟨e2, a2, c2⟩ := mem_run_star.1 hx
  exact ⟨by simp [e1, e2], by simp [c1, c2], d.text, x.text, rfl, n1, a1, a2⟩

/-- Group 5, `[a-z0-9]+\b|null`. -/
theorem run_recording {left s : List Char} {a : Thread}
    (h : a ∈ (((Regex.plus isLowerAlnum).seq Regex.wordBoundary).alt
      (Regex.lit "null".data)).run left s) :
    s = a.text ++ a.rest ∧ a.caps = [] ∧
      ((a.text ≠ [] ∧ ∀ c ∈ a.text, isLowerAlnum c = true) ∨ a.text = "null".data) := by
  rcases mem_run_alt.1 h with hh | hh
  · obtain ⟨p1, hp1, b1, hb1, rfl⟩ := mem_run_seq.1 hh
    obtain ⟨y1, y2, y3, y4⟩ := mem_run_plus.1 hp1
    obtain ⟨-, rfl⟩ := mem_run_wordBoundary.1 hb1
    exact ⟨by simpa using y1, by simp [y4], Or.inl ⟨by simpa using y2, by simpa using y3⟩⟩
  · obtain ⟨x1, x2, x3⟩ := mem_run_lit.1 hh
    exact ⟨by rw [x2]; exact x1, x3, Or.inr x2⟩

/-- Every match of `matchRE` starts at the beginning of the text and has the
shape of the pattern: the five literal parts with the five groups in between. -/
theorem run_matchRE {left s : List Char} {t : Thread} (h : t ∈ matchRE.run left s) :
    left = [] ∧ ∃ g₁ g₂ g₃ g₄ g₅ : List Char,
      s = "Parsed id: ".data ++ (g₁ ++ (", name: ".data ++ (g₂ ++ (", action: ".data ++
        (g₃ ++ (", motion: ".data ++ (g₄ ++ (", recording: ".data ++ (g₅ ++ t.rest))))))))) ∧
      t.caps = [(1, g₁), (2, g₂), (3, g₃), (4, g₄), (5, g₅)] ∧
      (g₁ ≠ [] ∧ ∀ c ∈ g₁, isWord c = true) ∧
      (g₂ ≠ [] ∧ ∀ c ∈ g₂, isWordOrSpace c = true) ∧
      (g₃ = "STARTED".data ∨ g₃ = "ENDED".data) ∧
      (∃ d x, g₄ = d ++ x ∧ d ≠ [] ∧ (∀ c ∈ d, isDigit c = true) ∧ ∀ c ∈ x, isDot c = true) ∧
      ((g₅ ≠ [] ∧ ∀ c ∈ g₅, isLowerAlnum c = true) ∨ g₅ = "null".data) := by
  unfold matchRE at h
  obtain ⟨t0, h0, r0, k0, e0⟩ := mem_run_seq.1 h
  obtain ⟨rfl, rfl⟩ := mem_run_beginText.1 h0
  obtain ⟨s1, e1, r1, k1, -, q1, c1⟩ := run_seq_lit k0
  obtain ⟨a2, h2, r2, k2, -, q2, c2⟩ := run_seq_group k1
  obtain ⟨e2, n2, p2, d2⟩ := mem_run_plus.1 h2
  obtain ⟨s3, e3, r3, k3, -, q3, c3⟩ := run_seq_lit k2
  obtain ⟨a4, h4, r4, k4, -, q4, c4⟩ := run_seq_group k3
  obtain ⟨e4, n4, p4, d4⟩ := mem_run_plus.1 h4
  obtain ⟨s5, e5, r5, k5, -, q5, c5⟩ := run_seq_lit k4
  obtain ⟨a6, h6, r6, k6, -, q6, c6⟩ := run_seq_group k5
  obtain ⟨e6, d6, p6⟩ := run_action h6
  obtain ⟨s7, e7, r7, k7, -, q7, c7⟩ := run_seq_lit k6
  obtain ⟨a8, h8, r8, k8, -, q8, c8⟩ := run_seq_group k7
  obtain ⟨e8, d8, p8⟩ := run_motion h8
  obtain ⟨s9, e9, r9, k9, -, q9, c9⟩ := run_seq_lit k8
  obtain ⟨a10, h10, rfl⟩ := mem_run_group.1 k9
  obtain ⟨e10, d10, p10⟩ := run_recording h10
  refine ⟨rfl, a2.text, a4.text, a6.text, a8.text, a10.text, ?_, ?_,
    ⟨n2, p2⟩, ⟨n4, p4⟩, p6, p8, p10⟩
  · simp only at e1
    rw [e0]
    simp only
    rw [q1, q2, q3, q4, q5, q6, q7, q8, q9, e1, e2, e3, e4, e5, e6, e7, e8, e9, e10]
  · rw [e0]
    simp only [List.nil_append]
    rw [c1, c2, c3, c4, c5, c6, c7, c8, c9, d2, d4, d6, d8, d10]
    rfl

/-- What a decoded event says about its line: the line begins with the five
literal parts and the five captured texts in between, and each captured text
is in the language of its group. -/
theorem decode_some {text : String} {e : MotionEvent} (h : decode text = some e) :
    ∃ tail : List Char,
      text.data = "Parsed id: ".data ++ (e.cameraID.data ++ (", name: ".data ++
        (e.cameraName.data ++ (", action: ".data ++ (e.action.data ++ (", motion: ".data ++
        (e.motionLevel.data ++ (", recording: ".data ++ (e.recordingID.data ++ tail))))))))) ∧
      (e.cameraID.data ≠ [] ∧ ∀ c ∈ e.cameraID.data, isWord c = true) ∧
      (e.cameraName.data ≠ [] ∧ ∀ c ∈ e.cameraName.data, isWordOrSpace c = true) ∧
      (e.action = "STARTED" ∨ e.action = "ENDED") ∧
      (∃ d x, e.motionLevel.data = d ++ x ∧ d ≠ [] ∧ (∀ c ∈ d, isDigit c = true) ∧
        ∀ c ∈ x, isDot c = true) ∧
      ((e.recordingID.data ≠ [] ∧ ∀ c ∈ e.recordingID.data, isLowerAlnum c = true) ∨
        e.recordingID = "null") := by
  unfold decode FindStringSubmatch at h
  cases hs : matchRE.search [] text.data with
  | none => rw [hs] at h; cases h
  | some t =>
    rw [hs] at h
    obtain ⟨sk, fh, e1, hm⟩ := search_some hs
    obtain ⟨hl, g₁, g₂, g₃, g₄, g₅, e2, hc, p1, p2, p3, p4, p5⟩ := run_matchRE hm
    have hsk : sk = [] := by simpa using hl
    subst hsk
    simp only [List.nil_append] at e1
    subst e1
    simp only [hc, Option.some.injEq] at h
    subst h
    refine ⟨t.rest, ?_, ?_, ?_, ?_, ?_, ?_⟩
    · simpa [capture, List.range, List.range.loop, List.lookup] using e2
    · simpa [capture, List.range, List.range.loop, List.lookup] using p1
    · simpa [capture, List.range, List.range.loop, List.lookup] using p2
    · rcases p3 with p3 | p3 <;> simp [capture, List.range, List.range.loop, List.lookup, p3]
    · simpa [capture, List.range, List.range.loop, List.lookup] using p4
    · rcases p5 with p5 | p5
      · left; simpa [capture, List.range, List.range.loop, List.lookup] using p5
      · right; simp [capture, List.range, List.range.loop, List.lookup, p5]

theorem head?_run_seq {a b : Regex} {left s : List Char} {x : Thread}
    (hx : x ∈ a.run left s)
    (hu : ∀ y ∈ a.run left s, b.run (y.text.reverse ++ left) y.rest ≠ [] → y = x) :
    ((a.seq b).run left s).head? =
      ((b.run (x.text.reverse ++ left) x.rest).head?).map
        (fun u => ⟨x.text ++ u.text, u.rest, x.caps ++ u.caps⟩) := by
  simp only [Regex.run]
  rw [head?_flatMap_unique hx, List.head?_map]
  intro y hy hne
  by_contra hc
  refine hne (hu y hy ?_)
  intro h0
  rw [h0] at hc
  exact hc rfl

theorem head?_run_seq_group {n : Nat} {A R : Regex} {left s : List Char} {x : Thread}
    (hx : x ∈ A.run left s)
    (hu : ∀ y ∈ A.run left s, R.run (y.text.reverse ++ left) y.rest ≠ [] → y = x) :
    (((Regex.group n A).seq R).run left s).head? =
      ((R.run (x.text.reverse ++ left) x.rest).head?).map
        (fun u => ⟨x.text ++ u.text, u.rest, x.caps ++ (n, x.text) :: u.caps⟩) := by
  have hx2 : (⟨x.text, x.rest, x.caps ++ [(n, x.text)]⟩ : Thread) ∈ (Regex.group n A).run left s :=
    mem_run_group.2 ⟨x, hx, rfl⟩
  rw [head?_run_seq hx2]
  · simp
  · intro y hy hne
    obtain ⟨u, hu1, rfl⟩ := mem_run_group.1 hy
    have := hu u hu1 hne
    rw [this]

theorem run_lit_append {l left s : List Char} :
    (Regex.lit l).run left (l ++ s) = [⟨l, s, []⟩] := by
  simp [Regex.run, List.isPrefixOf_iff_prefix]

theorem head?_run_seq_lit {l : List Char} {R : Regex} {left s : List Char} :
    (((Regex.lit l).seq R).run left (l ++ s)).head? =
      ((R.run (l.reverse ++ left) s).head?).map (fun u => ⟨l ++ u.text, u.rest, u.caps⟩) := by
  have : ((Regex.lit l).seq R).run left (l ++ s) =
      (R.run (l.reverse ++ left) s).map (fun u => ⟨l ++ u.text, u.rest, u.caps⟩) := by
    simp only [Regex.run]
    have h := @run_lit_append l left s
    simp only [Regex.run] at h
    rw [h]
    simp
  rw [this, List.head?_map]

theorem head?_run_seq_beginText {R : Regex} {s : List Char} :
    ((Regex.beginText.seq R).run [] s).head? = (R.run [] s).head? := by
  have : (Regex.beginText.seq R).run [] s = R.run [] s := by
    simp [Regex.run]
  rw [this]

/-- A sequence that starts with a literal matches only where the literal is. -/
theorem lit_of_run_ne_nil {l : List Char} {R : Regex} {left s : List Char}
    (h : ((Regex.lit l).seq R).run left s ≠ []) : ∃ s₁, s = l ++ s₁ := by
  obtain ⟨t, ht⟩ := List.exists_mem_of_ne_nil _ h
  obtain ⟨s₁, e, -⟩ := run_seq_lit ht
  exact ⟨s₁, e⟩

/-- A thread is determined by its three fields. -/
theorem thread_eq {y : Thread} {a b : List Char} {c : List (Nat × List Char)}
    (h1 : y.text = a) (h2 : y.rest = b) (h3 : y.caps = c) : y = ⟨a, b, c⟩ := by
  obtain ⟨yt, yr, yc⟩ := y
  simp only at h1 h2 h3
  rw [h1, h2, h3]

/-- Stage `(c+)` followed by a literal that starts with a character outside the
class: the group takes the whole run of class characters. -/
theorem head?_stage_plus {n : Nat} {p : Char → Bool} {d : Char} {L : List Char} {R : Regex}
    {left g rest : List Char} (hL : L.head? = some d) (hg : g ≠ [])
    (hp : ∀ c ∈ g, p c = true) (hd : p d = false) :
    (((Regex.group n (Regex.plus p)).seq ((Regex.lit L).seq R)).run left
        (g ++ (L ++ rest))).head? =
      ((((Regex.lit L).seq R).run (g.reverse ++ left) (L ++ rest)).head?).map
        (fun u => ⟨g ++ u.text, u.rest, (n, g) :: u.caps⟩) := by
  have hx : (⟨g, L ++ rest, []⟩ : Thread) ∈ (Regex.plus p).run left (g ++ (L ++ rest)) :=
    mem_run_plus.2 ⟨rfl, hg, hp, rfl⟩
  rw [head?_run_seq_group hx]
  · simp
  · intro y hy hne
    obtain ⟨e, -, hyp, hc⟩ := mem_run_plus.1 hy
    obtain ⟨s₁, e₁⟩ := lit_of_run_ne_nil hne
    cases L with
    | nil => simp at hL
    | cons d' l =>
      simp only [List.head?_cons, Option.some.injEq] at hL
      subst hL
      rw [e₁] at e
      obtain ⟨h1, h2⟩ := split_unique hd hp hyp (by simpa using e)
      refine thread_eq h1.symm ?_ hc
      rw [e₁]
      simp [h2]

/-- Stage `(STARTED|ENDED)`. -/
theorem head?_stage_action {n : Nat} {R : Regex} {left a rest : List Char}
    (ha : a = "STARTED".data ∨ a = "ENDED".data) :
    (((Regex.group n ((Regex.lit "STARTED".data).alt (Regex.lit "ENDED".data))).seq R).run left
        (a ++ rest)).head? =
      ((R.run (a.reverse ++ left) rest).head?).map
        (fun u => ⟨a ++ u.text, u.rest, (n, a) :: u.caps⟩) := by
  have hx : (⟨a, rest, []⟩ : Thread) ∈
      ((Regex.lit "STARTED".data).alt (Regex.lit "ENDED".data)).run left (a ++ rest) := by
    rcases ha with rfl | rfl
    · exact mem_run_alt.2 (Or.inl (mem_run_lit.2 ⟨rfl, rfl, rfl⟩))
    · exact mem_run_alt.2 (Or.inr (mem_run_lit.2 ⟨rfl, rfl, rfl⟩))
  rw [head?_run_seq_group hx]
  · simp
  · intro y hy _
    obtain ⟨e, hc, hy3⟩ := run_action hy
    have key : y.text = a ∧ y.rest = rest := by
      rcases ha with rfl | rfl <;> rcases hy3 with h3 | h3 <;> rw [h3] at e ⊢ <;>
        simp at e ⊢ <;> exact e.symm
    exact thread_eq key.1 key.2 hc

theorem isDigit_ne_comma {c : Char} (h : isDigit c = true) : c ≠ ',' := by
  rintro rfl; revert h; decide

theorem isDigit_isDot {c : Char} (h : isDigit c = true) : isDot c = true := by
  unfold isDot
  simp only [bne_iff_ne, ne_eq]
  rintro rfl; revert h; decide

theorem isLowerAlnum_ne_comma {c : Char} (h : isLowerAlnum c = true) : c ≠ ',' := by
  rintro rfl; revert h; decide

theorem isLowerAlnum_isWord {c : Char} (h : isLowerAlnum c = true) : isWord c = true := by
  unfold isLowerAlnum at h
  unfold isWord
  simp only [Bool.or_eq_true] at h
  rcases h with h | h <;> simp [h]

/-- Stage `(\d+.*)` before `, recording: `: on a decimal number followed by the
only comma of the remaining line, the group takes the number. -/
theorem head?_stage_motion {n : Nat} {R : Regex} {left i f rest : List Char}
    (hi : i ≠ []) (hid : ∀ c ∈ i, isDigit c = true)
    (hf : ∀ c ∈ f, isDigit c = true ∨ c = '.') (hrest : ',' ∉ rest) :
    (((Regex.group n ((Regex.plus isDigit).seq (Regex.star isDot))).seq
        ((Regex.lit ", recording: ".data).seq R)).run left
        ((i ++ f) ++ (", recording: ".data ++ rest))).head? =
      ((((Regex.lit ", recording: ".data).seq R).run ((i ++ f).reverse ++ left)
        (", recording: ".data ++ rest)).head?).map
        (fun u => ⟨(i ++ f) ++ u.text, u.rest, (n, i ++ f) :: u.caps⟩) := by
  have hfdot : ∀ c ∈ f, isDot c = true := by
    intro c hc
    rcases hf c hc with h | rfl
    · exact isDigit_isDot h
    · decide
  have hm : ∀ c ∈ i ++ f, (c != ',') = true := by
    intro c hc
    simp only [bne_iff_ne, ne_eq]
    rcases List.mem_append.1 hc with h | h
    · exact isDigit_ne_comma (hid c h)
    · rcases hf c h with h | rfl
      · exact isDigit_ne_comma h
      · decide
  have hx : (⟨i ++ f, ", recording: ".data ++ rest, []⟩ : Thread) ∈
      ((Regex.plus isDigit).seq (Regex.star isDot)).run left
        ((i ++ f) ++ (", recording: ".data ++ rest)) :=
    mem_run_seq.2 ⟨⟨i, f ++ (", recording: ".data ++ rest), []⟩,
      mem_run_plus.2 ⟨by simp, hi, hid, rfl⟩, ⟨f, ", recording: ".data ++ rest, []⟩,
      mem_run_star.2 ⟨rfl, hfdot, rfl⟩, by simp⟩
  rw [head?_run_seq_group hx]
  · simp
  · intro y hy hne
    obtain ⟨e, hc, -⟩ := run_motion hy
    obtain ⟨s₁, e₁⟩ := lit_of_run_ne_nil hne
    rw [e₁] at e
    have hL : ", recording: ".data = ',' :: " recording: ".data := rfl
    have hcnt := congrArg (List.count ',') e
    have h0 : List.count ',' (i ++ f) = 0 := by
      rw [List.count_eq_zero]
      intro hmem
      have := hm _ hmem
      simp at this
    have h1 : List.count ',' rest = 0 := List.count_eq_zero.2 hrest
    have h2 : List.count ',' ", recording: ".data = 1 := by decide
    simp only [List.count_append, h0, h1, h2] at hcnt
    have h3 : List.count ',' y.text = 0 := by omega
    have hy' : ∀ c ∈ y.text, (c != ',') = true := by
      intro c hc' 
      simp only [bne_iff_ne, ne_eq]
      rintro rfl
      exact List.count_eq_zero.1 h3 hc'
    rw [hL] at e
    obtain ⟨k1, k2⟩ := split_unique (p := fun c => c != ',') (d := ',') (by decide) hm hy'
      (by simpa using e)
    refine thread_eq k1.symm ?_ hc
    rw [e₁, hL]
    simp [k2]

/-- Group 5 on a lower-case alphanumeric token that ends the text: the first
alternative takes the whole token. -/
theorem head?_recording {n : Nat} {left r : List Char} (hr : r ≠ [])
    (hall : ∀ c ∈ r, isLowerAlnum c = true) :
    ((Regex.group n (((Regex.plus isLowerAlnum).seq Regex.wordBoundary).alt
      (Regex.lit "null".data))).run left r).head? = some ⟨r, [], [(n, r)]⟩ := by
  have hx : (⟨r, [], []⟩ : Thread) ∈ (Regex.plus isLowerAlnum).run left r :=
    mem_run_plus.2 ⟨by simp, hr, hall, rfl⟩
  have hlast : isWordAt (r.reverse ++ left).head? = true := by
    cases hrev : r.reverse with
    | nil => simp at hrev; exact absurd hrev hr
    | cons c cs =>
      have : c ∈ r := by
        have : c ∈ r.reverse := by rw [hrev]; simp
        simpa using this
      simpa [isWordAt] using isLowerAlnum_isWord (hall c this)
  have h1 : (((Regex.plus isLowerAlnum).seq Regex.wordBoundary).run left r).head? =
      some ⟨r, [], []⟩ := by
    have hb : Regex.wordBoundary.run (r.reverse ++ left) [] = [⟨[], [], []⟩] := by
      simp only [Regex.run, hlast]
      rfl
    rw [head?_run_seq hx]
    · simp only [hb]
      simp
    · intro y hy hne
      obtain ⟨e, hyne, hyall, hc⟩ := mem_run_plus.1 hy
      obtain ⟨t, ht⟩ := List.exists_mem_of_ne_nil _ hne
      obtain ⟨hb, -⟩ := mem_run_wordBoundary.1 ht
      have hyl : isWordAt (y.text.reverse ++ left).head? = true := by
        cases hrev : y.text.reverse with
        | nil => simp at hrev; exact absurd hrev hyne
        | cons c cs =>
          have : c ∈ y.text := by
            have : c ∈ y.text.reverse := by rw [hrev]; simp
            simpa using this
          simpa [isWordAt] using isLowerAlnum_isWord (hyall c this)
      have hrest : y.rest = [] := by
        cases hyr : y.rest with
        | nil => rfl
        | cons c cs =>
          exfalso
          apply hb
          rw [hyl, hyr]
          have : c ∈ r := by rw [e, hyr]; simp
          simpa [isWordAt] using (isLowerAlnum_isWord (hall c this)).symm
      refine thread_eq ?_ hrest hc
      rw [hrest] at e
      simpa using e.symm
  simp only [Regex.run] at h1 ⊢
  rw [List.head?_map, List.head?_append, h1]
  simp

/-- The first match of `matchRE` on a line made of the five literal parts and
five well-formed fields: the groups capture exactly the fields. -/
theorem head?_run_matchRE {id name action i f recording : List Char}
    (hid : id ≠ [] ∧ ∀ c ∈ id, isWord c = true)
    (hname : name ≠ [] ∧ ∀ c ∈ name, isWordOrSpace c = true)
    (haction : action = "STARTED".data ∨ action = "ENDED".data)
    (hi : i ≠ [] ∧ ∀ c ∈ i, isDigit c = true)
    (hf : ∀ c ∈ f, isDigit c = true ∨ c = '.')
    (hrec : recording ≠ [] ∧ ∀ c ∈ recording, isLowerAlnum c = true) :
    ∃ whole, (matchRE.run [] ("Parsed id: ".data ++ (id ++ (", name: ".data ++ (name ++
      (", action: ".data ++ (action ++ (", motion: ".data ++ ((i ++ f) ++
      (", recording: ".data ++ recording)))))))))).head? =
      some ⟨whole, [], [(1, id), (2, name), (3, action), (4, i ++ f), (5, recording)]⟩ := by
  have hcomma : ',' ∉ recording := fun h => isLowerAlnum_ne_comma (hrec.2 _ h) rfl
  unfold matchRE
  rw [head?_run_seq_beginText, head?_run_seq_lit,
    head?_stage_plus (L := ", name: ".data) (d := ',') rfl hid.1 hid.2 (by decide), head?_run_seq_lit,
    head?_stage_plus (L := ", action: ".data) (d := ',') rfl hname.1 hname.2 (by decide), head?_run_seq_lit,
    head?_stage_action haction, head?_run_seq_lit,
    head?_stage_motion hi.1 hi.2 hf hcomma, head?_run_seq_lit,
    head?_recording hrec.1 hrec.2]
  exact ⟨_, rfl⟩


/-! ## Decoding, the descriptor and the loop body -/

theorem of_isWordToken {s : String} (h : isWordToken s = true) :
    s.data ≠ [] ∧ ∀ c ∈ s.data, isWord c = true := by
  simp only [isWordToken, Bool.and_eq_true, Bool.not_eq_true', List.isEmpty_eq_false,
    List.all_eq_true] at h
  exact h

theorem of_isSpacedName {s : String} (h : isSpacedName s = true) :
    s.data ≠ [] ∧ ∀ c ∈ s.data, isWordOrSpace c = true := by
  simp only [isSpacedName, Bool.and_eq_true, List.all_eq_true, Bool.or_eq_true,
    beq_iff_eq] at h
  obtain ⟨⟨h1, h2⟩, -⟩ := h
  refine ⟨?_, ?_⟩
  · intro h0
    rw [h0] at h2
    simp at h2
  · intro c hc
    unfold isWordOrSpace
    rcases h1 c hc with h | rfl
    · simp [h]
    · decide

theorem of_isDecimal {s : String} (h : isDecimal s = true) :
    ∃ i f : List Char, s.data = i ++ f ∧ i ≠ [] ∧ (∀ c ∈ i, isDigit c = true) ∧
      ∀ c ∈ f, isDigit c = true ∨ c = '.' := by
  simp only [isDecimal, Bool.and_eq_true, Bool.not_eq_true', List.isEmpty_eq_false,
    Bool.or_eq_true, List.isEmpty_iff, beq_iff_eq, List.all_eq_true] at h
  obtain ⟨h1, h2⟩ := h
  refine ⟨s.data.takeWhile isDigit, s.data.dropWhile isDigit,
    (List.takeWhile_append_dropWhile _ _).symm, h1, fun c hc => (List.mem_takeWhile_imp hc), ?_⟩
  intro c hc
  rcases h2 with h2 | ⟨⟨h3, -⟩, h5⟩
  · rw [h2] at hc; cases hc
  · cases hr : s.data.dropWhile isDigit with
    | nil => rw [hr] at hc; cases hc
    | cons a t =>
      rw [hr] at hc h3 h5
      simp only [List.head?_cons, Option.some.injEq] at h3
      simp only [List.tail_cons] at h5
      rcases List.mem_cons.1 hc with rfl | hc
      · exact Or.inr h3
      · exact Or.inl (h5 c hc)

theorem of_isRecordingToken {s : String} (h : isRecordingToken s = true) :
    s.data ≠ [] ∧ ∀ c ∈ s.data, isLowerAlnum c = true := by
  simp only [isRecordingToken, Bool.or_eq_true, Bool.and_eq_true, Bool.not_eq_true',
    List.isEmpty_eq_false, List.all_eq_true, beq_iff_eq] at h
  rcases h with h | rfl
  · exact h
  · decide

/-- C1: for every id of one or more word characters, every name made of word
characters with interior spaces, every action `STARTED` or `ENDED`, every
decimal motion value and every recording that is a non-empty lower-case
alphanumeric token or `null`, the line
`Parsed id: <id>, name: <name>, action: <action>, motion: <motion>, recording: <recording>`
decodes to the event whose five fields are exactly those five strings. -/
theorem decode_parsedLine (id name action motion recording : String)
    (hid : isWordToken id = true) (hname : isSpacedName name = true)
    (haction : action = "STARTED" ∨ action = "ENDED") (hmotion : isDecimal motion = true)
    (hrec : isRecordingToken recording = true) :
    decode (parsedLine id name action motion recording) =
      some ⟨id, name, action, motion, recording⟩ := by
  obtain ⟨i, f, hmf, hi, hid', hf⟩ := of_isDecimal hmotion
  have haction' : action.data = "STARTED".data ∨ action.data = "ENDED".data := by
    rcases haction with rfl | rfl
    · exact Or.inl rfl
    · exact Or.inr rfl
  obtain ⟨whole, hw⟩ := head?_run_matchRE (of_isWordToken hid) (of_isSpacedName hname) haction'
    ⟨hi, hid'⟩ hf (of_isRecordingToken hrec)
  have hline : (parsedLine id name action motion recording).data =
      "Parsed id: ".data ++ (id.data ++ (", name: ".data ++ (name.data ++
      (", action: ".data ++ (action.data ++ (", motion: ".data ++ ((i ++ f) ++
      (", recording: ".data ++ recording.data)))))))) := by
    simp only [parsedLine, String.data_append, hmf, List.append_assoc]
  unfold decode FindStringSubmatch
  rw [hline, search_of_head? hw]
  simp [capture, List.range, List.range.loop, List.lookup, ← hmf]

/-- C1 at the line of the spec's scenario:
`Parsed id: cam1, name: Front Door, action: STARTED, motion: 0.82, recording: null`. -/
theorem decode_parsedLine_witness :
    isWordToken "cam1" = true ∧ isSpacedName "Front Door" = true ∧ isDecimal "0.82" = true ∧
    isRecordingToken "null" = true ∧
    parsedLine "cam1" "Front Door" "STARTED" "0.82" "null" =
      "Parsed id: cam1, name: Front Door, action: STARTED, motion: 0.82, recording: null" ∧
    decode "Parsed id: cam1, name: Front Door, action: STARTED, motion: 0.82, recording: null" =
      some ⟨"cam1", "Front Door", "STARTED", "0.82", "null"⟩ :=
  ⟨by decide, by decide, by decide, by decide, by decide,
    decode_parsedLine "cam1" "Front Door" "STARTED" "0.82" "null" (by decide) (by decide)
      (Or.inl rfl) (by decide) (by decide)⟩

/-- A line that does not begin with `Parsed id:` is not decoded. -/
theorem decode_none_of_not_parsed {text : String}
    (h : "Parsed id:".data.isPrefixOf text.data = false) : decode text = none := by
  cases hd : decode text with
  | none => rfl
  | some e =>
    exfalso
    obtain ⟨tail, e1, -⟩ := decode_some hd
    have : "Parsed id:".data.isPrefixOf text.data = true := by
      rw [e1, List.isPrefixOf_iff_prefix]
      exact ⟨_, by simp; rfl⟩
    rw [h] at this
    cases this

/-- C4: a line that the pattern does not match gives no event, and the loop
body then performs no effect at all (no session, no publish), does not exit,
and the loop goes on with the next line; a line that does not begin with
`Parsed id:` is such a line. -/
theorem unmatched_line_skipped (config : Configuration) (text : String) (net : Answers)
    (later : List (String × Answers)) :
    (decode text = none →
      loopBody config text net = ([], false) ∧
      mainLoop config ((text, net) :: later) = mainLoop config later) ∧
    ("Parsed id:".data.isPrefixOf text.data = false → decode text = none) := by
  refine ⟨?_, decode_none_of_not_parsed⟩
  intro h
  have hb : loopBody config text net = ([], false) := by simp [loopBody, h]
  refine ⟨hb, ?_⟩
  simp [mainLoop, hb]

/-- C4 at a log line of another kind. -/
theorem unmatched_line_skipped_witness :
    "Parsed id:".data.isPrefixOf "Motion detected on camera 1".data = false ∧
    decode "Motion detected on camera 1" = none ∧
    loopBody ⟨"tcp://broker:1883", "user", "secret"⟩ "Motion detected on camera 1"
      ⟨none, none, none, none⟩ = ([], false) :=
  have h := unmatched_line_skipped ⟨"tcp://broker:1883", "user", "secret"⟩
    "Motion detected on camera 1" ⟨none, none, none, none⟩ []
  ⟨by decide, h.2 (by decide), (h.1 (h.2 (by decide))).1⟩

/-- C9: the action of a decoded event is exactly `STARTED` or `ENDED`, and
its recording id is a non-empty string of lower-case letters and digits or the
marker `null`: it is never empty and holds no other character. -/
theorem decoded_action_recording (text : String) (e : MotionEvent)
    (h : decode text = some e) :
    (e.action = "STARTED" ∨ e.action = "ENDED") ∧
    ((e.recordingID.data ≠ [] ∧ ∀ c ∈ e.recordingID.data, isLowerAlnum c = true) ∨
      e.recordingID = "null") ∧
    e.recordingID ≠ "" ∧
    ∀ c ∈ e.recordingID.data, isLower c = true ∨ isDigit c = true := by
  obtain ⟨tail, -, -, -, h3, -, h5⟩ := decode_some h
  have h5' : e.recordingID.data ≠ [] ∧ ∀ c ∈ e.recordingID.data, isLowerAlnum c = true := by
    rcases h5 with h5 | h5
    · exact h5
    · rw [h5]; decide
  refine ⟨h3, h5, ?_, ?_⟩
  · intro h0
    rw [h0] at h5'
    exact h5'.1 rfl
  · intro c hc
    have := h5'.2 c hc
    simpa [isLowerAlnum] using this

/-- C9 at the line of the spec's scenario. -/
theorem decoded_action_recording_witness :
    decode "Parsed id: cam1, name: Front Door, action: STARTED, motion: 0.82, recording: null" =
      some ⟨"cam1", "Front Door", "STARTED", "0.82", "null"⟩ ∧
    (("STARTED" : String) = "STARTED" ∨ ("STARTED" : String) = "ENDED") ∧
    ("null" : String) ≠ "" :=
  have hd : decode
      "Parsed id: cam1, name: Front Door, action: STARTED, motion: 0.82, recording: null" =
      some ⟨"cam1", "Front Door", "STARTED", "0.82", "null"⟩ := by decide
  have h := decoded_action_recording _ _ hd
  ⟨hd, h.1, h.2.2.1⟩

/-- C10 fails as stated: the line whose name field is a space, `Front`, a tab,
`Door` and a space is decoded, and its camera name begins and ends with white
space and holds a tab, which is neither a word character nor a space. -/
theorem cameraName_outer_space :
    decode "Parsed id: cam1, name:  Front\tDoor , action: STARTED, motion: 0.82, recording: null" =
      some ⟨"cam1", " Front\tDoor ", "STARTED", "0.82", "null"⟩ ∧
    isInteriorSpaced " Front\tDoor " = false ∧
    " Front\tDoor ".data.head? = some ' ' ∧ " Front\tDoor ".data.getLast? = some ' ' ∧
    '\t' ∈ " Front\tDoor ".data ∧ isWord '\t' = false := by
  refine ⟨by decide, by decide, by decide, by decide, by decide, by decide⟩

/-- C10, amended: the camera name of a decoded event is non-empty and consists
only of word characters and white space of the class `\s` (space, tab,
newline, form feed, carriage return). -/
theorem decoded_cameraName (text : String) (e : MotionEvent) (h : decode text = some e) :
    e.cameraName.data ≠ [] ∧
    ∀ c ∈ e.cameraName.data, isWord c = true ∨ c = ' ' ∨ c = '\t' ∨ c = '\n' ∨ c = '\x0c' ∨
      c = '\r' := by
  obtain ⟨tail, -, -, h2, -⟩ := decode_some h
  refine ⟨h2.1, ?_⟩
  intro c hc
  have := h2.2 c hc
  simp only [isWordOrSpace, isSpace, Bool.or_eq_true, beq_iff_eq] at this
  tauto

/-- C10, amended, at the line with the spaced and tabbed name. -/
theorem decoded_cameraName_witness :
    decode "Parsed id: cam1, name:  Front\tDoor , action: STARTED, motion: 0.82, recording: null" =
      some ⟨"cam1", " Front\tDoor ", "STARTED", "0.82", "null"⟩ ∧
    " Front\tDoor ".data ≠ [] :=
  have hd : decode
      "Parsed id: cam1, name:  Front\tDoor , action: STARTED, motion: 0.82, recording: null" =
      some ⟨"cam1", " Front\tDoor ", "STARTED", "0.82", "null"⟩ := by decide
  ⟨hd, (decoded_cameraName _ _ hd).1⟩

theorem topic_status (name : String) :
    topic name ++ "/" ++ "status" =
      "homeassistant/binary_sensor/" ++ ToSnake name ++ "_motion/status" := by
  simp only [topic, String.append_assoc]
  rfl

theorem topic_state (name : String) :
    topic name ++ "/" ++ "state" =
      "homeassistant/binary_sensor/" ++ ToSnake name ++ "_motion/state" := by
  simp only [topic, String.append_assoc]
  rfl

theorem topic_config (name : String) :
    topic name ++ "/" ++ "config" =
      "homeassistant/binary_sensor/" ++ ToSnake name ++ "_motion/config" := by
  simp only [topic, String.append_assoc]
  rfl

/-- C3: the descriptor of an event has the event's camera id as id, the
camera name followed by ` Camera Motion` as name, the availability topic
`<ns>/status` and the state topic `<ns>/state` for
`<ns> = homeassistant/binary_sensor/<slug>_motion`, and the constants `motion`,
`STARTED`, `ENDED`, which are the same for all events; the descriptor is
published to `<ns>/config`. For the name `Front Door` the slug is `front_door`. -/
theorem buildDevice_fields (e e' : MotionEvent) :
    buildDevice e =
      { ID := e.cameraID
        Name := e.cameraName ++ " Camera Motion"
        AvailabilityTopic :=
          "homeassistant/binary_sensor/" ++ ToSnake e.cameraName ++ "_motion/status"
        StateTopic := "homeassistant/binary_sensor/" ++ ToSnake e.cameraName ++ "_motion/state"
        DeviceClass := "motion"
        PayloadOn := "STARTED"
        PayloadOff := "ENDED" } ∧
    topic e.cameraName ++ "/" ++ "config" =
      "homeassistant/binary_sensor/" ++ ToSnake e.cameraName ++ "_motion/config" ∧
    ((buildDevice e).DeviceClass = (buildDevice e').DeviceClass ∧
      (buildDevice e).PayloadOn = (buildDevice e').PayloadOn ∧
      (buildDevice e).PayloadOff = (buildDevice e').PayloadOff) ∧
    ToSnake "Front Door" = "front_door" ∧
    buildDevice ⟨"cam1", "Front Door", "STARTED", "0.82", "null"⟩ =
      { ID := "cam1"
        Name := "Front Door Camera Motion"
        AvailabilityTopic := "homeassistant/binary_sensor/front_door_motion/status"
        StateTopic := "homeassistant/binary_sensor/front_door_motion/state"
        DeviceClass := "motion"
        PayloadOn := "STARTED"
        PayloadOff := "ENDED" } ∧
    topic "Front Door" ++ "/" ++ "config" =
      "homeassistant/binary_sensor/front_door_motion/config" := by
  refine ⟨?_, topic_config _, ⟨rfl, rfl, rfl⟩, by decide, by decide, by decide⟩
  simp only [buildDevice, topic_status, topic_state]

/-- The loop body on a line that decodes to `e` when the connection succeeds. -/
theorem loopBody_connected {config : Configuration} {text : String} {e : MotionEvent}
    {net : Answers} (h : decode text = some e) (hc : net.connect = none) :
    loopBody config text net =
      ([Effect.stdout ("Parsed id: " ++ e.cameraID ++ ", name: " ++ e.cameraName ++
          ", action: " ++ e.action ++ ", motion: " ++ e.motionLevel ++ ", recording: " ++
          e.recordingID ++ "\n"),
        Effect.connect ⟨config.Broker, config.Username, config.Password,
          "homeassistant/binary_sensor/" ++ ToSnake e.cameraName ++ "_motion/status",
          "offline", 0, false⟩,
        Effect.publish ("homeassistant/binary_sensor/" ++ ToSnake e.cameraName ++ "_motion/config")
          0 false (jsonMarshal (buildDevice e))] ++
        reportError net.config ++
        [Effect.publish ("homeassistant/binary_sensor/" ++ ToSnake e.cameraName ++ "_motion/state")
          0 false e.action] ++
        reportError net.state ++
        [Effect.publish ("homeassistant/binary_sensor/" ++ ToSnake e.cameraName ++ "_motion/status")
          0 false "online"] ++
        reportError net.status, false) := by
  simp only [loopBody, h, handleEvent, hc, buildDevice, topic_status, topic_state, topic_config]

/-- The loop body on a line that decodes to `e` when the connection fails. -/
theorem loopBody_refused {config : Configuration} {text : String} {e : MotionEvent}
    {net : Answers} {err : String} (h : decode text = some e) (hc : net.connect = some err) :
    loopBody config text net =
      ([Effect.stdout ("Parsed id: " ++ e.cameraID ++ ", name: " ++ e.cameraName ++
          ", action: " ++ e.action ++ ", motion: " ++ e.motionLevel ++ ", recording: " ++
          e.recordingID ++ "\n"),
        Effect.connect ⟨config.Broker, config.Username, config.Password,
          "homeassistant/binary_sensor/" ++ ToSnake e.cameraName ++ "_motion/status",
          "offline", 0, false⟩,
        Effect.fatal err], true) := by
  simp only [loopBody, h, handleEvent, hc, buildDevice, topic_status]

theorem filter_reportError_broker (r : Option String) :
    (reportError r).filter Effect.isBrokerCall = [] := by
  cases r <;> rfl

theorem filter_reportError_publish (r : Option String) :
    (reportError r).filter Effect.isPublish = [] := by
  cases r <;> rfl

/-- C5: for a recognized event whose connection succeeds, whatever the
outcome of each publish, the publishes made are the three of config, state
and availability in that order, the error of each failed publish is written
to standard output, the process does not exit, and the loop goes on with the
next line. -/
theorem publishes_best_effort (config : Configuration) (text : String) (e : MotionEvent)
    (net : Answers) (later : List (String × Answers))
    (h : decode text = some e) (hc : net.connect = none) :
    (loopBody config text net).1.filter Effect.isPublish =
      [Effect.publish ("homeassistant/binary_sensor/" ++ ToSnake e.cameraName ++ "_motion/config")
          0 false (jsonMarshal (buildDevice e)),
        Effect.publish ("homeassistant/binary_sensor/" ++ ToSnake e.cameraName ++ "_motion/state")
          0 false e.action,
        Effect.publish ("homeassistant/binary_sensor/" ++ ToSnake e.cameraName ++ "_motion/status")
          0 false "online"] ∧
    (∀ err, net.config = some err ∨ net.state = some err ∨ net.status = some err →
      Effect.stdout (err ++ "\n") ∈ (loopBody config text net).1) ∧
    (∀ msg, Effect.fatal msg ∉ (loopBody config text net).1) ∧
    (loopBody config text net).2 = false ∧
    mainLoop config ((text, net) :: later) =
      ((loopBody config text net).1 ++ (mainLoop config later).1, (mainLoop config later).2) := by
  have hb := @loopBody_connected config text e net h hc
  refine ⟨?_, ?_, ?_, ?_, ?_⟩
  · rw [hb]
    simp only [List.filter_append, filter_reportError_publish, List.append_nil]
    rfl
  · intro err herr
    rw [hb]
    rcases herr with h1 | h1 | h1 <;> simp [h1, reportError]
  · intro msg
    rw [hb]
    cases net.config <;> cases net.state <;> cases net.status <;> simp [reportError]
  · rw [hb]
  · rw [hb]
    simp only [mainLoop, hb]

/-- C5 at the spec's scenario: the config publish succeeds, the state publish
fails, the availability publish is still made and the next line is read. -/
theorem publishes_best_effort_witness :
    decode "Parsed id: cam1, name: Front Door, action: STARTED, motion: 0.82, recording: null" =
      some ⟨"cam1", "Front Door", "STARTED", "0.82", "null"⟩ ∧
    (loopBody ⟨"tcp://broker:1883", "user", "secret"⟩
      "Parsed id: cam1, name: Front Door, action: STARTED, motion: 0.82, recording: null"
      ⟨none, none, some "connection lost", none⟩).1.filter Effect.isPublish =
      [Effect.publish "homeassistant/binary_sensor/front_door_motion/config" 0 false
          (jsonMarshal (buildDevice ⟨"cam1", "Front Door", "STARTED", "0.82", "null"⟩)),
        Effect.publish "homeassistant/binary_sensor/front_door_motion/state" 0 false "STARTED",
        Effect.publish "homeassistant/binary_sensor/front_door_motion/status" 0 false "online"] ∧
    Effect.stdout "connection lost\n" ∈ (loopBody ⟨"tcp://broker:1883", "user", "secret"⟩
      "Parsed id: cam1, name: Front Door, action: STARTED, motion: 0.82, recording: null"
      ⟨none, none, some "connection lost", none⟩).1 :=
  have hd : decode
      "Parsed id: cam1, name: Front Door, action: STARTED, motion: 0.82, recording: null" =
      some ⟨"cam1", "Front Door", "STARTED", "0.82", "null"⟩ := by decide
  have h := publishes_best_effort ⟨"tcp://broker:1883", "user", "secret"⟩ _ _
    ⟨none, none, some "connection lost", none⟩ [] hd rfl
  ⟨hd, h.1, h.2.1 "connection lost" (Or.inr (Or.inl rfl))⟩

/-- C6: for a recognized event whose connection fails, the process exits
after `log.Fatal` has reported the connection error; the effects of the whole
loop end there, and there is no publish among them: none for this event and
none for any later line. -/
theorem connect_failure_fatal (config : Configuration) (text : String) (e : MotionEvent)
    (net : Answers) (later : List (String × Answers)) (err : String)
    (h : decode text = some e) (hc : net.connect = some err) :
    (mainLoop config ((text, net) :: later)).2 = true ∧
    (mainLoop config ((text, net) :: later)).1 = (loopBody config text net).1 ∧
    (mainLoop config ((text, net) :: later)).1.getLast? = some (Effect.fatal err) ∧
    (mainLoop config ((text, net) :: later)).1.filter Effect.isPublish = [] := by
  have hb := @loopBody_refused config text e net err h hc
  have hm : mainLoop config ((text, net) :: later) = loopBody config text net := by
    simp only [mainLoop, hb]
  rw [hm, hb]
  exact ⟨rfl, rfl, rfl, rfl⟩

/-- C6 at the spec's scenario: the connection is refused on the first of two
motion lines. -/
theorem connect_failure_fatal_witness :
    decode "Parsed id: cam1, name: Front Door, action: STARTED, motion: 0.82, recording: null" =
      some ⟨"cam1", "Front Door", "STARTED", "0.82", "null"⟩ ∧
    (mainLoop ⟨"tcp://broker:1883", "user", "secret"⟩
      [("Parsed id: cam1, name: Front Door, action: STARTED, motion: 0.82, recording: null",
          ⟨some "connection refused", none, none, none⟩),
        ("Parsed id: cam1, name: Front Door, action: ENDED, motion: 0.10, recording: null",
          ⟨none, none, none, none⟩)]).2 = true ∧
    (mainLoop ⟨"tcp://broker:1883", "user", "secret"⟩
      [("Parsed id: cam1, name: Front Door, action: STARTED, motion: 0.82, recording: null",
          ⟨some "connection refused", none, none, none⟩),
        ("Parsed id: cam1, name: Front Door, action: ENDED, motion: 0.10, recording: null",
          ⟨none, none, none, none⟩)]).1.filter Effect.isPublish = [] :=
  have hd : decode
      "Parsed id: cam1, name: Front Door, action: STARTED, motion: 0.82, recording: null" =
      some ⟨"cam1", "Front Door", "STARTED", "0.82", "null"⟩ := by decide
  have h := connect_failure_fatal ⟨"tcp://broker:1883", "user", "secret"⟩ _ _
    ⟨some "connection refused", none, none, none⟩
    [("Parsed id: cam1, name: Front Door, action: ENDED, motion: 0.10, recording: null",
      ⟨none, none, none, none⟩)] "connection refused" hd rfl
  ⟨hd, h.1, h.2.2.2⟩

theorem isUpper_cases {c : Char} (h : isUpper c = true) :
    c ∈ "ABCDEFGHIJKLMNOPQRSTUVWXYZ".data := by
  have hc : c = Char.ofNat c.toNat := (Char.ofNat_toNat c).symm
  simp only [isUpper, Bool.and_eq_true, decide_eq_true_eq] at h
  obtain ⟨h1, h2⟩ := h
  have h1' : 65 ≤ c.toNat := h1
  have h2' : c.toNat ≤ 90 := h2
  generalize c.toNat = n at hc h1' h2'
  subst hc
  interval_cases n <;> decide

theorem lower_of_not_isUpper {c : Char} (h : isUpper c = false) : lower c = c := by
  simp [lower, h]

theorem isUpper_lower (c : Char) : isUpper (lower c) = false := by
  cases h : isUpper c with
  | false => rw [lower_of_not_isUpper h, h]
  | true =>
    have key : ∀ d ∈ "ABCDEFGHIJKLMNOPQRSTUVWXYZ".data, isUpper (lower d) = false := by decide
    exact key c (isUpper_cases h)

theorem isLower_lower (c : Char) : isLower (lower c) = (isLower c || isUpper c) := by
  cases h : isUpper c with
  | false => rw [lower_of_not_isUpper h]; simp
  | true =>
    have key : ∀ d ∈ "ABCDEFGHIJKLMNOPQRSTUVWXYZ".data, isLower (lower d) = true := by decide
    rw [key c (isUpper_cases h)]
    simp

theorem isDigit_lower (c : Char) : isDigit (lower c) = isDigit c := by
  cases h : isUpper c with
  | false => rw [lower_of_not_isUpper h]
  | true =>
    have key : ∀ d ∈ "ABCDEFGHIJKLMNOPQRSTUVWXYZ".data, isDigit (lower d) = isDigit d := by
      decide
    exact key c (isUpper_cases h)

theorem isUpper_iff {c : Char} : isUpper c = true ↔ 65 ≤ c.toNat ∧ c.toNat ≤ 90 := by
  simp only [isUpper, Bool.and_eq_true, decide_eq_true_eq]
  exact Iff.rfl

theorem isLower_iff {c : Char} : isLower c = true ↔ 97 ≤ c.toNat ∧ c.toNat ≤ 122 := by
  simp only [isLower, Bool.and_eq_true, decide_eq_true_eq]
  exact Iff.rfl

theorem isDigit_iff {c : Char} : isDigit c = true ↔ 48 ≤ c.toNat ∧ c.toNat ≤ 57 := by
  simp only [isDigit, Bool.and_eq_true, decide_eq_true_eq]
  exact Iff.rfl

theorem isLower_of_isUpper {c : Char} (h : isUpper c = true) : isLower c = false := by
  rw [isUpper_iff] at h
  cases hl : isLower c with
  | false => rfl
  | true => rw [isLower_iff] at hl; omega

theorem isDigit_of_isUpper {c : Char} (h : isUpper c = true) : isDigit c = false := by
  rw [isUpper_iff] at h
  cases hl : isDigit c with
  | false => rfl
  | true => rw [isDigit_iff] at hl; omega

theorem isDigit_of_isLower {c : Char} (h : isLower c = true) : isDigit c = false := by
  rw [isLower_iff] at h
  cases hl : isDigit c with
  | false => rfl
  | true => rw [isDigit_iff] at hl; omega

theorem isSeparator_cases {c : Char} (h : isSeparator c = true) :
    c = ' ' ∨ c = '_' ∨ c = '-' ∨ c = '.' := by
  simp only [isSeparator, Bool.or_eq_true, beq_iff_eq] at h
  tauto

theorem not_isSeparator_of_alnum {c : Char} (h : isLower c = true ∨ isDigit c = true) :
    isSeparator c = false := by
  cases hs : isSeparator c with
  | false => rfl
  | true =>
    exfalso
    rcases isSeparator_cases hs with rfl | rfl | rfl | rfl <;> revert h <;> decide

theorem caseChanges_underscore_right (x : Char) : caseChanges x '_' = false := by
  have h1 : isLower '_' = false := by decide
  have h2 : isUpper '_' = false := by decide
  have h3 : isDigit '_' = false := by decide
  simp [caseChanges, h1, h2, h3]

theorem caseChanges_underscore_left (y : Char) : caseChanges '_' y = false := by
  have h1 : isLower '_' = false := by decide
  have h2 : isUpper '_' = false := by decide
  have h3 : isDigit '_' = false := by decide
  simp [caseChanges, h1, h2, h3]

theorem caseChanges_lower {v next : Char} (h : caseChanges v next = false) :
    caseChanges (lower v) (lower next) = false := by
  simp only [caseChanges, isUpper_lower, isLower_lower, isDigit_lower] at h ⊢
  revert h
  cases isUpper v <;> cases isLower v <;> cases isDigit v <;> cases isUpper next <;>
    cases isLower next <;> cases isDigit next <;> decide

theorem caseChanges_lower_of_upper_lower {v next : Char} (hv : isUpper v = true)
    (hn : isLower next = true) : caseChanges (lower v) (lower next) = false := by
  simp [caseChanges, isUpper_lower, isLower_lower, isDigit_lower, isDigit_of_isUpper hv,
    isDigit_of_isLower hn]

/-- The characters that the loop of the slug transform can write. -/
theorem mem_snakeLoop :
    ∀ (l : List Char) (prev : Option Char) (c : Char), c ∈ snakeLoop prev l →
      c = '_' ∨ ∃ v ∈ l, c = lower v ∧ isSeparator (lower v) = false := by
  intro l
  induction l with
  | nil => intro prev c h; simp [snakeLoop] at h
  | cons v l ih =>
    intro prev c h
    cases l with
    | nil =>
      simp only [snakeLoop, List.mem_singleton, plainOut] at h
      by_cases hs : isSeparator (lower v) = true
      · rw [if_pos hs] at h; exact Or.inl h
      · rw [if_neg hs] at h
        exact Or.inr ⟨v, by simp, h, by simpa using hs⟩
    | cons next rest =>
      simp only [snakeLoop] at h
      by_cases hcc : caseChanges v next = true
      · rw [if_pos hcc] at h
        have hv : isSeparator (lower v) = false := by
          apply not_isSeparator_of_alnum
          rw [isLower_lower, isDigit_lower]
          simp only [caseChanges, Bool.or_eq_true, Bool.and_eq_true] at hcc
          simp only [Bool.or_eq_true]
          tauto
        simp only [List.mem_append, List.mem_cons] at h
        rcases h with (h | h | h) | h
        · left; split at h <;> simp at h; exact h
        · exact Or.inr ⟨v, by simp, h, hv⟩
        · left; split at h <;> simp at h; exact h
        · rcases ih _ c h with h1 | ⟨w, hw, h1⟩
          · exact Or.inl h1
          · exact Or.inr ⟨w, List.mem_cons_of_mem _ hw, h1⟩
      · rw [if_neg hcc] at h
        rcases List.mem_cons.1 h with h | h
        · simp only [plainOut] at h
          by_cases hs : isSeparator (lower v) = true
          · rw [if_pos hs] at h; exact Or.inl h
          · rw [if_neg hs] at h
            exact Or.inr ⟨v, by simp, h, by simpa using hs⟩
        · rcases ih _ c h with h1 | ⟨w, hw, h1⟩
          · exact Or.inl h1
          · exact Or.inr ⟨w, List.mem_cons_of_mem _ hw, h1⟩

theorem caseChanges_plainOut_right {x v : Char}
    (h : caseChanges x (lower v) = false) : caseChanges x (plainOut v) = false := by
  unfold plainOut
  split
  · exact caseChanges_underscore_right x
  · exact h

theorem caseChanges_plainOut_left {v y : Char}
    (h : caseChanges (lower v) y = false) : caseChanges (plainOut v) y = false := by
  unfold plainOut
  split
  · exact caseChanges_underscore_left y
  · exact h

/-- In the output of the loop no character is followed by one of another case
type: every place where the loop would insert an underscore has got one. -/
theorem chain_snakeLoop :
    ∀ (l : List Char) (prev : Option Char) (x : Char),
      (∀ v, l.head? = some v → caseChanges x (lower v) = false) →
      List.Chain (fun a b => caseChanges a b = false) x (snakeLoop prev l) := by
  intro l
  induction l with
  | nil => intro prev x _; simp [snakeLoop]
  | cons v l ih =>
    intro prev x hx
    have hxv : caseChanges x (lower v) = false := hx v rfl
    cases l with
    | nil =>
      simp only [snakeLoop]
      exact List.Chain.cons (caseChanges_plainOut_right hxv) List.Chain.nil
    | cons next rest =>
      simp only [snakeLoop]
      by_cases hcc : caseChanges v next = true
      · rw [if_pos hcc]
        have tail_us : List.Chain (fun a b => caseChanges a b = false) '_'
            (snakeLoop (some v) (next :: rest)) :=
          ih (some v) '_' (fun w _ => caseChanges_underscore_left _)
        have body : List.Chain (fun a b => caseChanges a b = false) (lower v)
            ((if (isLower v || isDigit v || isDigit next) = true then ['_'] else []) ++
              snakeLoop (some v) (next :: rest)) := by
          by_cases hpost : (isLower v || isDigit v || isDigit next) = true
          · rw [if_pos hpost]
            exact List.Chain.cons (caseChanges_underscore_right _) tail_us
          · rw [if_neg hpost]
            simp only [List.nil_append]
            apply ih
            intro w hw
            simp only [List.head?_cons, Option.some.injEq] at hw
            subst hw
            simp only [Bool.or_eq_true, not_or, Bool.not_eq_true] at hpost
            obtain ⟨⟨h1, h2⟩, h3⟩ := hpost
            simp only [caseChanges, h1, h2, h3, Bool.or_false, Bool.false_and, Bool.and_eq_true,
              Bool.or_eq_true, Bool.false_or] at hcc
            exact caseChanges_lower_of_upper_lower hcc.1 hcc.2
        by_cases hpre : (isUpper v && isLower next && prev.any isUpper) = true
        · rw [if_pos hpre]
          simp only [List.cons_append, List.nil_append, List.append_assoc]
          exact List.Chain.cons (caseChanges_underscore_right _)
            (List.Chain.cons (caseChanges_underscore_left _) body)
        · rw [if_neg hpre]
          simp only [List.cons_append, List.nil_append, List.append_assoc]
          exact List.Chain.cons hxv body
      · rw [if_neg hcc]
        refine List.Chain.cons (caseChanges_plainOut_right hxv) (ih (some v) _ ?_)
        intro w hw
        simp only [List.head?_cons, Option.some.injEq] at hw
        subst hw
        exact caseChanges_plainOut_left (caseChanges_lower (by simpa using hcc))

/-- The loop leaves a list as it is when the list has no capital, no space,
hyphen or dot, and no change of case type between neighbours. -/
theorem snakeLoop_fixed :
    ∀ (l : List Char) (prev : Option Char),
      List.Chain' (fun a b => caseChanges a b = false) l → (∀ c ∈ l, plainOut c = c) →
      snakeLoop prev l = l := by
  intro l
  induction l with
  | nil => intro prev _ _; simp [snakeLoop]
  | cons v l ih =>
    intro prev hch hp
    cases l with
    | nil => simp [snakeLoop, hp v (by simp)]
    | cons next rest =>
      simp only [snakeLoop]
      have hcc : caseChanges v next = false := (List.chain'_cons.1 hch).1
      rw [if_neg (by simp [hcc])]
      rw [hp v (by simp), ih (some v) (List.chain'_cons.1 hch).2
        (fun c hc => hp c (List.mem_cons_of_mem _ hc))]

theorem plainOut_underscore : plainOut '_' = '_' := by decide

theorem plainOut_lower {v : Char} (h : isSeparator (lower v) = false) :
    plainOut (lower v) = lower v := by
  have : lower (lower v) = lower v := lower_of_not_isUpper (isUpper_lower v)
  simp [plainOut, this, h]

/-- The loop of the slug transform is idempotent. -/
theorem snakeLoop_idem (l : List Char) (prev prev' : Option Char) :
    snakeLoop prev' (snakeLoop prev l) = snakeLoop prev l := by
  apply snakeLoop_fixed
  · have h : List.Chain' (fun a b => caseChanges a b = false) ('_' :: snakeLoop prev l) :=
      chain_snakeLoop l prev '_' (fun w _ => caseChanges_underscore_left _)
    exact h.tail
  · intro c hc
    rcases mem_snakeLoop l prev c hc with rfl | ⟨v, -, rfl, hs⟩
    · exact plainOut_underscore
    · exact plainOut_lower hs

theorem trimSpace_head {s : List Char} {c : Char} (h : (trimSpace s).head? = some c) :
    isUnicodeSpace c = false := by
  unfold trimSpace at h
  obtain ⟨r, hr⟩ : (s.dropWhile isUnicodeSpace).rdropWhile isUnicodeSpace <+:
      s.dropWhile isUnicodeSpace := List.rdropWhile_prefix _ _
  have hd := List.head?_dropWhile_not isUnicodeSpace s
  cases ht : (s.dropWhile isUnicodeSpace).rdropWhile isUnicodeSpace with
  | nil => rw [ht] at h; cases h
  | cons a t =>
    rw [ht] at h hr
    simp only [List.head?_cons, Option.some.injEq] at h
    subst h
    rw [← hr] at hd
    simpa using hd

theorem trimSpace_last {s : List Char} {c : Char} (h : (trimSpace s).getLast? = some c) :
    isUnicodeSpace c = false := by
  unfold trimSpace at h
  have hne : (s.dropWhile isUnicodeSpace).rdropWhile isUnicodeSpace ≠ [] := by
    intro h0; rw [h0] at h; cases h
  have := List.rdropWhile_last_not isUnicodeSpace _ hne
  rw [List.getLast?_eq_getLast _ hne, Option.some.injEq] at h
  rw [h] at this
  simpa using this

theorem trimSpace_eq_self {l : List Char}
    (hh : ∀ c, l.head? = some c → isUnicodeSpace c = false)
    (hl : ∀ c, l.getLast? = some c → isUnicodeSpace c = false) : trimSpace l = l := by
  unfold trimSpace
  have h1 : l.dropWhile isUnicodeSpace = l := by
    rw [List.dropWhile_eq_self_iff]
    intro hpos
    cases l with
    | nil => simp at hpos
    | cons a t => simpa using hh a rfl
  rw [h1, List.rdropWhile_eq_self_iff]
  intro hne
  have := hl _ (List.getLast?_eq_getLast _ hne)
  simpa using this

theorem isUnicodeSpace_lower {v : Char} (h : isUnicodeSpace v = false) :
    isUnicodeSpace (lower v) = false := by
  cases hu : isUpper v with
  | false => rw [lower_of_not_isUpper hu, h]
  | true =>
    have key : ∀ d ∈ "ABCDEFGHIJKLMNOPQRSTUVWXYZ".data, isUnicodeSpace (lower d) = false := by
      decide
    exact key v (isUpper_cases hu)

theorem isUnicodeSpace_plainOut {v : Char} (h : isUnicodeSpace v = false) :
    isUnicodeSpace (plainOut v) = false := by
  unfold plainOut
  split
  · decide
  · exact isUnicodeSpace_lower h

theorem head?_snakeLoop (v : Char) (l : List Char) (prev : Option Char) :
    (snakeLoop prev (v :: l)).head? = some '_' ∨
      (snakeLoop prev (v :: l)).head? = some (lower v) ∨
      (snakeLoop prev (v :: l)).head? = some (plainOut v) := by
  cases l with
  | nil => simp [snakeLoop]
  | cons next rest =>
    simp only [snakeLoop]
    split
    · split <;> simp
    · simp

theorem getLast?_snakeLoop :
    ∀ (l : List Char) (prev : Option Char),
      (snakeLoop prev l).getLast? = l.getLast?.map plainOut := by
  intro l
  induction l with
  | nil => intro prev; simp [snakeLoop]
  | cons v l ih =>
    intro prev
    cases l with
    | nil => simp [snakeLoop]
    | cons next rest =>
      have hS := ih (some v)
      obtain ⟨z, hz⟩ : ∃ z, (next :: rest).getLast? = some z :=
        ⟨_, List.getLast?_eq_getLast _ (by simp)⟩
      rw [hz] at hS
      simp only [snakeLoop, List.getLast?_cons_cons]
      split
      · rw [List.getLast?_append, hS, hz]; simp
      · rw [List.getLast?_cons, hS, hz]; simp

/-- The output of the slug transform has no white space at either end. -/
theorem trimSpace_snakeLoop (s : List Char) (prev : Option Char) :
    trimSpace (snakeLoop prev (trimSpace s)) = snakeLoop prev (trimSpace s) := by
  apply trimSpace_eq_self
  · intro c hc
    cases ht : trimSpace s with
    | nil => rw [ht] at hc; simp [snakeLoop] at hc
    | cons v l =>
      rw [ht] at hc
      have hv : isUnicodeSpace v = false := trimSpace_head (by rw [ht]; rfl)
      rcases head?_snakeLoop v l prev with h | h | h <;> rw [h] at hc <;>
        simp only [Option.some.injEq] at hc <;> subst hc
      · decide
      · exact isUnicodeSpace_lower hv
      · exact isUnicodeSpace_plainOut hv
  · intro c hc
    rw [getLast?_snakeLoop] at hc
    cases hl : (trimSpace s).getLast? with
    | none => rw [hl] at hc; cases hc
    | some z =>
      rw [hl] at hc
      simp only [Option.map_some', Option.some.injEq] at hc
      subst hc
      exact isUnicodeSpace_plainOut (trimSpace_last hl)

/-- The slug transform is idempotent. -/
theorem ToSnake_idem (s : String) : ToSnake (ToSnake s) = ToSnake s := by
  unfold ToSnake
  simp only [trimSpace_snakeLoop, snakeLoop_idem]

theorem mem_trimSpace {s : List Char} {c : Char} (h : c ∈ trimSpace s) : c ∈ s := by
  unfold trimSpace at h
  have h1 := (List.rdropWhile_prefix isUnicodeSpace (s.dropWhile isUnicodeSpace)).subset h
  exact (List.dropWhile_suffix isUnicodeSpace).subset h1

/-- C7 fails as stated: the line whose name field is `front`, a tab, `door` is
decoded, and the slug of that name is the name itself: it holds a tab, which
is a white space character. -/
theorem slug_keeps_tab :
    decode "Parsed id: cam1, name: front\tdoor, action: STARTED, motion: 0.82, recording: null" =
      some ⟨"cam1", "front\tdoor", "STARTED", "0.82", "null"⟩ ∧
    ToSnake "front\tdoor" = "front\tdoor" ∧
    ¬ (∀ c ∈ (ToSnake "front\tdoor").data, isSpace c = false) ∧
    '\t' ∈ (ToSnake "front\tdoor").data ∧ isSpace '\t' = true ∧ isUnicodeSpace '\t' = true := by
  refine ⟨by decide, by decide, by decide, by decide, by decide, by decide⟩

/-- C7, amended: for the camera name of a decoded event, the slug holds no
capital letter and no space character (each of its characters is a lower-case
letter, a digit, an underscore, or a tab, newline, form feed or carriage return
kept from the name), and the slug transform applied to the slug returns it
unchanged. -/
theorem slug_of_decoded (text : String) (e : MotionEvent) (h : decode text = some e) :
    (∀ c ∈ (ToSnake e.cameraName).data, isUpper c = false ∧ c ≠ ' ') ∧
    (∀ c ∈ (ToSnake e.cameraName).data, isLower c = true ∨ isDigit c = true ∨ c = '_' ∨
      c = '\t' ∨ c = '\n' ∨ c = '\x0c' ∨ c = '\r') ∧
    ToSnake (ToSnake e.cameraName) = ToSnake e.cameraName := by
  obtain ⟨tail, -, -, h2, -⟩ := decode_some h
  refine ⟨?_, ?_, ToSnake_idem _⟩
  · intro c hc
    rcases mem_snakeLoop _ _ c hc with rfl | ⟨v, -, rfl, hs⟩
    · exact ⟨by decide, by decide⟩
    · refine ⟨isUpper_lower v, ?_⟩
      intro h0
      rw [h0] at hs
      revert hs
      decide
  · intro c hc
    rcases mem_snakeLoop _ _ c hc with rfl | ⟨v, hv, rfl, hs⟩
    · exact Or.inr (Or.inr (Or.inl rfl))
    · have hw := h2.2 v (mem_trimSpace hv)
      simp only [isWordOrSpace, isWord, isSpace, Bool.or_eq_true, beq_iff_eq] at hw
      rcases hw with (((hd | hu) | hl) | rfl) | (((( rfl | rfl) | rfl) | rfl) | rfl)
      · right; left; rw [isDigit_lower]; exact hd
      · left; rw [isLower_lower, hu]; simp
      · left; rw [isLower_lower, hl]; simp
      · right; right; left; decide
      · right; right; right; left; decide
      · right; right; right; right; left; decide
      · right; right; right; right; right; left; decide
      · right; right; right; right; right; right; decide
      · revert hs; decide

/-- C7, amended, at the line with the tabbed name. -/
theorem slug_of_decoded_witness :
    decode "Parsed id: cam1, name: Front\tDoor, action: STARTED, motion: 0.82, recording: null" =
      some ⟨"cam1", "Front\tDoor", "STARTED", "0.82", "null"⟩ ∧
    ToSnake (ToSnake "Front\tDoor") = ToSnake "Front\tDoor" :=
  have hd : decode
      "Parsed id: cam1, name: Front\tDoor, action: STARTED, motion: 0.82, recording: null" =
      some ⟨"cam1", "Front\tDoor", "STARTED", "0.82", "null"⟩ := by decide
  ⟨hd, (slug_of_decoded _ _ hd).2.2⟩


/-! ## The JSON encoding read back -/

theorem hexValue_hexDigit : ∀ k, k < 16 → hexValue (hexDigit k) = some k := by decide

theorem readChar_jsonEscape (c : Char) (tail : List Char) :
    readChar (jsonEscape c ++ tail) = some (c, tail) := by
  have hc : Char.ofNat c.toNat = c := Char.ofNat_toNat c
  unfold jsonEscape
  split_ifs with h1 hb hf h2 h3 h4 h5 h6
  · rcases h1 with rfl | rfl <;> simp [readChar, unescape]
  · subst hb; simp [readChar, unescape]
  · subst hf; simp [readChar, unescape]
  · subst h2; simp [readChar, unescape]
  · subst h3; simp [readChar, unescape]
  · subst h4; simp [readChar, unescape]
  · have hn : c.toNat < 256 := by
      rcases h5 with h | rfl | rfl | rfl
      · omega
      · decide
      · decide
      · decide
    have hx : hexValue '0' = some 0 := by decide
    have e1 := hexValue_hexDigit (c.toNat / 16) (by omega)
    have e2 := hexValue_hexDigit (c.toNat % 16) (by omega)
    have e3 : c.toNat / 16 * 16 + c.toNat % 16 = c.toNat := by omega
    simp [readChar, hx, e1, e2, e3, hc]
  · have hx0 : hexValue '0' = some 0 := by decide
    have hx2 : hexValue '2' = some 2 := by decide
    have e2 := hexValue_hexDigit (c.toNat % 16) (by omega)
    have e3 : ((2 * 16 + 0) * 16 + 2) * 16 + c.toNat % 16 = c.toNat := by omega
    simp [readChar, hx0, hx2, e2, e3, hc]
  · have hq : c ≠ '"' := fun h => h1 (Or.inl h)
    have hbs : c ≠ '\\' := fun h => h1 (Or.inr h)
    have hl : ¬ c.toNat < 0x20 := fun h => h5 (Or.inl h)
    simp [readChar, hq, hbs, hl]

theorem jsonEscape_head (c : Char) :
    ∃ x l, jsonEscape c = x :: l ∧ x ≠ '"' := by
  unfold jsonEscape
  split_ifs with h1 hb hf h2 h3 h4 h5 h6
  · exact ⟨_, _, rfl, by decide⟩
  · exact ⟨_, _, rfl, by decide⟩
  · exact ⟨_, _, rfl, by decide⟩
  · exact ⟨_, _, rfl, by decide⟩
  · exact ⟨_, _, rfl, by decide⟩
  · exact ⟨_, _, rfl, by decide⟩
  · exact ⟨_, _, rfl, by decide⟩
  · exact ⟨_, _, rfl, by decide⟩
  · exact ⟨_, _, rfl, fun h => h1 (Or.inl h)⟩

theorem length_flatMap_jsonEscape (s : List Char) :
    s.length ≤ (s.flatMap jsonEscape).length := by
  induction s with
  | nil => simp
  | cons c s ih =>
    obtain ⟨x, l, hx, -⟩ := jsonEscape_head c
    simp only [List.flatMap_cons, List.length_append, List.length_cons, hx]
    omega

/-- Reading back the body of a string literal gives the string written. -/
theorem readStringBody_jsonEscape :
    ∀ (s : List Char) (fuel : Nat) (tail : List Char), s.length < fuel →
      readStringBody fuel (s.flatMap jsonEscape ++ '"' :: tail) = some (s, tail) := by
  intro s
  induction s with
  | nil =>
    intro fuel tail hf
    cases fuel with
    | zero => omega
    | succ f => simp [readStringBody]
  | cons c s ih =>
    intro fuel tail hf
    cases fuel with
    | zero => omega
    | succ f =>
      have hr := readChar_jsonEscape c (s.flatMap jsonEscape ++ '"' :: tail)
      obtain ⟨x, l, hx, hq⟩ := jsonEscape_head c
      simp only [List.flatMap_cons, List.append_assoc]
      rw [hx] at hr ⊢
      simp only [List.cons_append] at hr ⊢
      rw [readStringBody]
      · simp only [hr]
        rw [ih f tail (by simpa using hf)]
        rfl
      · intro rest h
        simp only [List.cons.injEq] at h
        exact hq h.1

/-- Reading back a string literal gives the string written. -/
theorem readString_jsonString (x : String) (tail : List Char) :
    readString (jsonString x ++ tail) = some (x, tail) := by
  unfold jsonString
  simp only [List.cons_append, List.append_assoc, List.singleton_append, readString]
  rw [readStringBody_jsonEscape]
  · rfl
  · have := length_flatMap_jsonEscape x.data
    simp only [List.length_append, List.length_cons]
    omega

theorem length_jsonMembers (kvs : List (String × String)) :
    kvs.length ≤ (jsonMembers kvs).length := by
  induction kvs with
  | nil => simp
  | cons kv more ih =>
    obtain ⟨k, v⟩ := kv
    cases more with
    | nil => simp [jsonMembers, jsonString]
    | cons kv2 more2 =>
      simp only [jsonMembers, List.length_append, List.length_cons] at ih ⊢
      omega

/-- Reading back the members of an object gives the members written. -/
theorem readMembers_jsonMembers :
    ∀ (kvs : List (String × String)) (fuel : Nat), kvs ≠ [] → kvs.length ≤ fuel →
      readMembers fuel (jsonMembers kvs ++ ['\x7d']) = some kvs := by
  intro kvs
  induction kvs with
  | nil => intro fuel h; exact absurd rfl h
  | cons kv more ih =>
    intro fuel _ hf
    obtain ⟨k, v⟩ := kv
    cases fuel with
    | zero => simp at hf
    | succ f =>
      cases more with
      | nil =>
        simp only [jsonMembers, List.append_assoc, List.cons_append, readMembers,
          readString_jsonString]
      | cons kv2 more2 =>
        have := ih f (by simp) (by simpa using hf)
        simp only [jsonMembers, List.append_assoc, List.cons_append, readMembers,
          readString_jsonString, this]
        rfl

/-- Reading back the object that `json.Marshal` writes for a `Device`. -/
theorem readObject_jsonMarshal (d : Device) :
    readObject (jsonMarshal d) = some [("id", d.ID), ("name", d.Name),
      ("availability_topic", d.AvailabilityTopic), ("state_topic", d.StateTopic),
      ("device_class", d.DeviceClass), ("payload_on", d.PayloadOn),
      ("payload_off", d.PayloadOff)] := by
  unfold readObject jsonMarshal
  simp only [List.cons_append]
  apply readMembers_jsonMembers
  · simp
  · have := length_jsonMembers [("id", d.ID), ("name", d.Name),
      ("availability_topic", d.AvailabilityTopic), ("state_topic", d.StateTopic),
      ("device_class", d.DeviceClass), ("payload_on", d.PayloadOn),
      ("payload_off", d.PayloadOff)]
    simp only [List.length_append]
    omega

/-- C2: for a recognized event whose connection succeeds, the calls to the
broker are exactly: a connect with the last will `offline` on `<ns>/status`
(QoS 0, not retained), a publish of the serialized descriptor to `<ns>/config`,
a publish of the action to `<ns>/state`, a publish of `online` to
`<ns>/status`, each publish at QoS 0 and not retained. The serialized
descriptor is the JSON text of line 136: read back, it is the object of the
descriptor's seven fields. -/
theorem broker_sequence (config : Configuration) (text : String) (e : MotionEvent)
    (net : Answers) (h : decode text = some e) (hc : net.connect = none) :
    (loopBody config text net).1.filter Effect.isBrokerCall =
      [Effect.connect ⟨config.Broker, config.Username, config.Password,
          "homeassistant/binary_sensor/" ++ ToSnake e.cameraName ++ "_motion/status",
          "offline", 0, false⟩,
        Effect.publish ("homeassistant/binary_sensor/" ++ ToSnake e.cameraName ++ "_motion/config")
          0 false (jsonMarshal (buildDevice e)),
        Effect.publish ("homeassistant/binary_sensor/" ++ ToSnake e.cameraName ++ "_motion/state")
          0 false e.action,
        Effect.publish ("homeassistant/binary_sensor/" ++ ToSnake e.cameraName ++ "_motion/status")
          0 false "online"] ∧
    readObject (jsonMarshal (buildDevice e)) = some [("id", e.cameraID),
      ("name", e.cameraName ++ " Camera Motion"),
      ("availability_topic",
        "homeassistant/binary_sensor/" ++ ToSnake e.cameraName ++ "_motion/status"),
      ("state_topic", "homeassistant/binary_sensor/" ++ ToSnake e.cameraName ++ "_motion/state"),
      ("device_class", "motion"), ("payload_on", "STARTED"), ("payload_off", "ENDED")] := by
  refine ⟨?_, ?_⟩
  · rw [loopBody_connected h hc]
    simp only [List.filter_append, filter_reportError_broker, List.append_nil]
    rfl
  · rw [readObject_jsonMarshal]
    simp only [buildDevice, topic_status, topic_state]

set_option maxRecDepth 8192 in
/-- C2 at the line of the spec's scenario, with the four broker calls and the
bytes of the config payload written out. -/
theorem broker_sequence_witness :
    decode "Parsed id: cam1, name: Front Door, action: STARTED, motion: 0.82, recording: null" =
      some ⟨"cam1", "Front Door", "STARTED", "0.82", "null"⟩ ∧
    (loopBody ⟨"tcp://broker:1883", "user", "secret"⟩
      "Parsed id: cam1, name: Front Door, action: STARTED, motion: 0.82, recording: null"
      ⟨none, none, some "connection lost", none⟩).1.filter Effect.isBrokerCall =
      [Effect.connect ⟨"tcp://broker:1883", "user", "secret",
          "homeassistant/binary_sensor/front_door_motion/status", "offline", 0, false⟩,
        Effect.publish "homeassistant/binary_sensor/front_door_motion/config" 0 false
          "\x7b\"id\":\"cam1\",\"name\":\"Front Door Camera Motion\",\"availability_topic\":\"homeassistant/binary_sensor/front_door_motion/status\",\"state_topic\":\"homeassistant/binary_sensor/front_door_motion/state\",\"device_class\":\"motion\",\"payload_on\":\"STARTED\",\"payload_off\":\"ENDED\"\x7d",
        Effect.publish "homeassistant/binary_sensor/front_door_motion/state" 0 false "STARTED",
        Effect.publish "homeassistant/binary_sensor/front_door_motion/status" 0 false "online"] :=
  have hd : decode
      "Parsed id: cam1, name: Front Door, action: STARTED, motion: 0.82, recording: null" =
      some ⟨"cam1", "Front Door", "STARTED", "0.82", "null"⟩ := by decide
  ⟨hd, (broker_sequence ⟨"tcp://broker:1883", "user", "secret"⟩ _ _
    ⟨none, none, some "connection lost", none⟩ hd rfl).1⟩

/-- C8: for a decoded event, the payload published to the config topic is the
serialization of the descriptor; read back as JSON it is one object whose
members are `id`, `name`, `availability_topic`, `state_topic`, `device_class`,
`payload_on`, `payload_off` in that order, each with the string of the
corresponding descriptor field as value; events with equal fields give the
same payload. In a value, backspace, form feed, newline, carriage return and
tab are written with their two-character escapes. -/
theorem config_payload (config : Configuration) (text : String) (e : MotionEvent)
    (net : Answers) (h : decode text = some e) (hc : net.connect = none) :
    Effect.publish ("homeassistant/binary_sensor/" ++ ToSnake e.cameraName ++ "_motion/config")
      0 false (jsonMarshal (buildDevice e)) ∈ (loopBody config text net).1 ∧
    readObject (jsonMarshal (buildDevice e)) = some [("id", e.cameraID),
      ("name", e.cameraName ++ " Camera Motion"),
      ("availability_topic",
        "homeassistant/binary_sensor/" ++ ToSnake e.cameraName ++ "_motion/status"),
      ("state_topic", "homeassistant/binary_sensor/" ++ ToSnake e.cameraName ++ "_motion/state"),
      ("device_class", "motion"), ("payload_on", "STARTED"), ("payload_off", "ENDED")] ∧
    (∀ e' : MotionEvent, e'.cameraID = e.cameraID → e'.cameraName = e.cameraName →
      jsonMarshal (buildDevice e') = jsonMarshal (buildDevice e)) ∧
    jsonString "\x08\x0c\n\r\t" = "\"\\b\\f\\n\\r\\t\"".data := by
  refine ⟨?_, ?_, ?_, by decide⟩
  · rw [loopBody_connected h hc]
    simp
  · rw [readObject_jsonMarshal]
    simp only [buildDevice, topic_status, topic_state]
  · intro e' h1 h2
    simp only [buildDevice, h1, h2]

set_option maxRecDepth 8192 in
/-- C8 at the line of the spec's scenario, with the payload written out, and at
a line whose name holds a form feed, written `\f` in the payload. -/
theorem config_payload_witness :
    decode "Parsed id: cam1, name: Front Door, action: STARTED, motion: 0.82, recording: null" =
      some ⟨"cam1", "Front Door", "STARTED", "0.82", "null"⟩ ∧
    jsonMarshal (buildDevice ⟨"cam1", "Front Door", "STARTED", "0.82", "null"⟩) =
      "\x7b\"id\":\"cam1\",\"name\":\"Front Door Camera Motion\",\"availability_topic\":\"homeassistant/binary_sensor/front_door_motion/status\",\"state_topic\":\"homeassistant/binary_sensor/front_door_motion/state\",\"device_class\":\"motion\",\"payload_on\":\"STARTED\",\"payload_off\":\"ENDED\"\x7d" ∧
    readObject (jsonMarshal (buildDevice ⟨"cam1", "Front Door", "STARTED", "0.82", "null"⟩)) =
      some [("id", "cam1"), ("name", "Front Door Camera Motion"),
        ("availability_topic", "homeassistant/binary_sensor/front_door_motion/status"),
        ("state_topic", "homeassistant/binary_sensor/front_door_motion/state"),
        ("device_class", "motion"), ("payload_on", "STARTED"), ("payload_off", "ENDED")] ∧
    decode "Parsed id: cam1, name: Front\x0cDoor, action: ENDED, motion: 0.10, recording: null" =
      some ⟨"cam1", "Front\x0cDoor", "ENDED", "0.10", "null"⟩ ∧
    jsonMarshal (buildDevice ⟨"cam1", "Front\x0cDoor", "ENDED", "0.10", "null"⟩) =
      "\x7b\"id\":\"cam1\",\"name\":\"Front\\fDoor Camera Motion\",\"availability_topic\":\"homeassistant/binary_sensor/front\\fdoor_motion/status\",\"state_topic\":\"homeassistant/binary_sensor/front\\fdoor_motion/state\",\"device_class\":\"motion\",\"payload_on\":\"STARTED\",\"payload_off\":\"ENDED\"\x7d" :=
  have hd : decode
      "Parsed id: cam1, name: Front Door, action: STARTED, motion: 0.82, recording: null" =
      some ⟨"cam1", "Front Door", "STARTED", "0.82", "null"⟩ := by decide
  have h := config_payload ⟨"tcp://broker:1883", "user", "secret"⟩ _ _
    ⟨none, none, none, none⟩ hd rfl
  ⟨hd, by decide, h.2.1, by decide, by decide⟩

end MotionMqtt
